import Mathlib

/-!
Verification of the save-game codec of this repository: a shallow embedding
of the record model (`records.rs`), the byte-stream decoder (`parser.rs`)
and the graph encoder (`serializer.rs`), with theorems settling the
specified properties of the codec.

Modelling conventions:
* Bytes are natural numbers (written values are below 256 by construction);
  byte streams are `List Nat`.
* Machine integers (`i32`, `u32`, `usize`, ...) are modelled by their bit
  patterns as natural numbers below `2 ^ width`.  Where the Rust code
  performs a signed operation on an `i32` (the sign extension in
  `as usize`, the signed comparison `count < 0x100`), the model performs
  the corresponding explicit operation on the bit pattern.
* Rust `String` values are modelled by their UTF-8 byte content
  (`List Nat`); `f32` / `f64` values are modelled by their raw
  little-endian bit patterns, which is faithful because the codec moves
  them between bytes and fields without computing with them.
* `HashMap` is modelled by an insertion-ordered association list
  (`List (Nat × _)`); iteration order in the model is insertion order.
* Panics (`assert!`, `todo!`, `.unwrap()`, map/slice indexing) are
  modelled as dedicated error values; `PError.isPanic` distinguishes them
  from the typed `std::io::Error` values the code returns.
-/

namespace Codec

/-! ## Little-endian byte encodings of fixed-width integers -/

/-- Little-endian byte encoding of width `w`: the bytes `byteorder`'s
`write_uXX::<LittleEndian>` emits for the bit pattern `v`. -/
def leBytes : Nat → Nat → List Nat
  | 0, _ => []
  | w + 1, v => v % 256 :: leBytes w (v / 256)

/-- Little-endian value of a byte list, as read by `read_uXX::<LittleEndian>`. -/
def leNat : List Nat → Nat
  | [] => 0
  | b :: rest => b + 256 * leNat rest

theorem leBytes_length (w v : Nat) : (leBytes w v).length = w := by
  induction w generalizing v with
  | zero => rfl
  | succ w ih => simp [leBytes, ih]

theorem leNat_leBytes (w v : Nat) : leNat (leBytes w v) = v % 256 ^ w := by
  induction w generalizing v with
  | zero => simp [leBytes, leNat, Nat.mod_one]
  | succ w ih =>
      have h : (256 : Nat) ^ (w + 1) = 256 * 256 ^ w := by ring
      rw [leBytes, leNat, ih, h, Nat.mod_mul]

theorem leNat_leBytes_of_lt {w v : Nat} (h : v < 256 ^ w) :
    leNat (leBytes w v) = v := by
  rw [leNat_leBytes, Nat.mod_eq_of_lt h]

theorem leBytes_lt (w v : Nat) : ∀ b ∈ leBytes w v, b < 256 := by
  induction w generalizing v with
  | zero => simp [leBytes]
  | succ w ih =>
      intro b hb
      simp only [leBytes, List.mem_cons] at hb
      rcases hb with h | h
      · subst h; exact Nat.mod_lt _ (by omega)
      · exact ih _ _ h

/-- Sign extension performed by Rust's `v as usize` on an `i32` bit
pattern: values with the sign bit set become large `u64` values. -/
def usizeOfI32 (v : Nat) : Nat :=
  if v < 2 ^ 31 then v else v + (2 ^ 64 - 2 ^ 32)

/-! ## The record model (`records.rs`) -/

/-- Enumeration `PrimitiveType` of `records.rs`. -/
inductive PrimitiveType
  | Boolean | Byte | Char | Decimal | Double | Int16 | Int32 | Int64 | Int8
  | Single | TimeSpan | DateTime | UInt16 | UInt32 | UInt64 | Null | String
  deriving DecidableEq

/-- Enumeration `Primitive` of `records.rs`.  Numeric payloads carry the
bit pattern of the Rust value; `Decimal` and `String` carry UTF-8 bytes. -/
inductive Primitive
  | Boolean (b : Bool)
  | Byte (v : Nat)
  | Char (c : Nat)
  | Decimal (s : List Nat)
  | Double (bits : Nat)
  | Int16 (bits : Nat)
  | Int32 (bits : Nat)
  | Int64 (bits : Nat)
  | Int8 (bits : Nat)
  | Single (bits : Nat)
  | TimeSpan (bits : Nat)
  | DateTime (bits : Nat)
  | UInt16 (v : Nat)
  | UInt32 (v : Nat)
  | UInt64 (v : Nat)
  | Null
  | String (s : List Nat)
  deriving DecidableEq

/-- The `Primitive::primitive_type` method of `records.rs`. -/
def Primitive.primitiveType : Primitive → PrimitiveType
  | .Boolean _ => .Boolean
  | .Byte _ => .Byte
  | .Char _ => .Char
  | .Decimal _ => .Decimal
  | .Double _ => .Double
  | .Int16 _ => .Int16
  | .Int32 _ => .Int32
  | .Int64 _ => .Int64
  | .Int8 _ => .Int8
  | .Single _ => .Single
  | .TimeSpan _ => .TimeSpan
  | .DateTime _ => .DateTime
  | .UInt16 _ => .UInt16
  | .UInt32 _ => .UInt32
  | .UInt64 _ => .UInt64
  | .Null => .Null
  | .String _ => .String

/-- Enumeration `MemberType` of `records.rs`. -/
inductive MemberType
  | Primitive (t : PrimitiveType)
  | String
  | Object
  | SystemClass (name : List Nat)
  | Class (name : List Nat) (libraryId : Nat)
  | ObjectArray
  | StringArray
  | PrimitiveArray (t : PrimitiveType)
  deriving DecidableEq

/-- Enumeration `Member` of `records.rs`. -/
inductive Member
  | Primitive (v : Primitive)
  | Reference (id : Nat)
  | Null
  | NullMultiple (count : Nat)
  deriving DecidableEq

/-- Struct `Class` of `records.rs`. -/
structure Class where
  class_type_id : Nat
  members : List Member
  deriving DecidableEq

/-- Struct `ClassType` of `records.rs`. -/
structure ClassType where
  name : List Nat
  library_id : Nat
  system_class : Bool
  member_names : List (List Nat)
  member_types : List MemberType
  deriving DecidableEq

/-- Enumeration `Record` of `records.rs`. -/
inductive Record
  | BinaryLibrary (name : List Nat)
  | Class (c : Class)
  | BinaryArray (t : MemberType) (vals : List Member)
  | PrimitiveArray (t : PrimitiveType) (vals : List Primitive)
  | String (s : List Nat)
  deriving DecidableEq

/-- Struct `DeserializedRecord` of `records.rs`; `records` models the
`HashMap<i32, Record>` as an insertion-ordered association list. -/
structure DeserializedRecord where
  root_id : Nat
  header_id : Nat
  records : List (Nat × Record)
  class_types : List ClassType
  deriving DecidableEq

/-- Association-list lookup, the model of `HashMap` reads. -/
def lookupA {α : Type} : List (Nat × α) → Nat → Option α
  | [], _ => none
  | (k, v) :: rest, k' => if k = k' then some v else lookupA rest k'

/-! ## Decoder errors (`parser.rs`)

Each constructor corresponds to one failure site of `parser.rs`:
the first group models the `std::io::Error` values the code returns,
the second group models panics (`assert!`, `todo!`, `.unwrap()`, and
`HashMap` / `Vec` indexing).  `progressCheck` is a model artifact used to
discharge termination (the underlying loops always make progress, so it
is never produced on any input the Rust code accepts or rejects). -/
inductive PError
  | eof
  | headerByte (b : Nat)
  | unknownRecordType (b : Nat)
  | duplicateRecord (id : Nat)
  | unexpectedMemberTag (b : Nat)
  | unknownPrimitiveType (b : Nat)
  | unknownMemberType (b : Nat)
  | assertMajorVersion (v : Nat)
  | assertMinorVersion (v : Nat)
  | todoArrayType (b : Nat)
  | todoArrayRank (r : Nat)
  | todoChar
  | utf8Unwrap
  | missingClassMetadata (id : Nat)
  | classTypeIndex (idx : Nat)
  | progressCheck
  deriving DecidableEq

/-- Discriminates modelled panics (aborts) from the typed
`std::io::Error` values `parse` returns. -/
def PError.isPanic : PError → Bool
  | .eof | .headerByte _ | .unknownRecordType _ | .duplicateRecord _
  | .unexpectedMemberTag _ | .unknownPrimitiveType _ | .unknownMemberType _ => false
  | _ => true

/-- Parser state: the remaining input slice plus the three collections the
`Parser` struct of `parser.rs` accumulates. -/
structure PState where
  bytes : List Nat
  records : List (Nat × Record)
  class_types : List ClassType
  class_metadata : List (Nat × Nat)
  deriving DecidableEq

/-- Result type of the parsing functions. -/
abbrev PResult (α : Type) := Except PError (α × PState)

/-! ## Byte-level readers -/

/-- The `peek_byte` method. -/
def peekByte (st : PState) : Except PError Nat :=
  match st.bytes with
  | [] => .error .eof
  | b :: _ => .ok b

/-- The `parse_u8` method (`read_u8`). -/
def parseU8 (st : PState) : PResult Nat :=
  match st.bytes with
  | [] => .error .eof
  | b :: rest => .ok (b, { st with bytes := rest })

/-- The `take_bytes` method. -/
def takeBytes (n : Nat) (st : PState) : PResult (List Nat) :=
  if st.bytes.length < n then .error .eof
  else .ok (st.bytes.take n, { st with bytes := st.bytes.drop n })

/-- The `parse_i32` method (`read_i32::<LittleEndian>`), yielding the
32-bit pattern. -/
def parseI32 (st : PState) : PResult Nat :=
  match takeBytes 4 st with
  | .error e => .error e
  | .ok (bs, st') => .ok (leNat bs, st')

/-- One step of the `parse_length` loop: `k` iterations remain, `i` is
`bit_range`, `acc` the accumulated length.  Accumulation is `u32`
arithmetic (`length += (byte & 0x7f) << (bit_range * 7)`), hence the
`% 2 ^ 32`; the loop stops on a byte with the high bit clear. -/
def parseLengthAux : Nat → Nat → Nat → PState → PResult Nat
  | 0, _, acc, st => .ok (acc, st)
  | k + 1, i, acc, st =>
    match parseU8 st with
    | .error e => .error e
    | .ok (b, st') =>
      let acc' := (acc + b % 128 * 2 ^ (7 * i)) % 2 ^ 32
      if b < 128 then .ok (acc', st')
      else parseLengthAux k (i + 1) acc' st'

/-- The `parse_length` method: a 1-5 byte base-128 varint. -/
def parseLength (st : PState) : PResult Nat :=
  parseLengthAux 5 0 0 st

/-- UTF-8 validity of a byte list, the check behind
`std::str::from_utf8(bytes).unwrap()` (RFC 3629 ranges). -/
def utf8Valid : List Nat → Bool
  | [] => true
  | b :: rest =>
    if b < 0x80 then utf8Valid rest
    else if b < 0xC2 then false
    else if b < 0xE0 then
      match rest with
      | b1 :: r => decide (0x80 ≤ b1 ∧ b1 < 0xC0) && utf8Valid r
      | [] => false
    else if b < 0xF0 then
      match rest with
      | b1 :: b2 :: r =>
        (if b = 0xE0 then decide (0xA0 ≤ b1 ∧ b1 < 0xC0)
         else if b = 0xED then decide (0x80 ≤ b1 ∧ b1 < 0xA0)
         else decide (0x80 ≤ b1 ∧ b1 < 0xC0)) &&
        decide (0x80 ≤ b2 ∧ b2 < 0xC0) && utf8Valid r
      | _ => false
    else if b < 0xF5 then
      match rest with
      | b1 :: b2 :: b3 :: r =>
        (if b = 0xF0 then decide (0x90 ≤ b1 ∧ b1 < 0xC0)
         else if b = 0xF4 then decide (0x80 ≤ b1 ∧ b1 < 0x90)
         else decide (0x80 ≤ b1 ∧ b1 < 0xC0)) &&
        decide (0x80 ≤ b2 ∧ b2 < 0xC0) &&
        decide (0x80 ≤ b3 ∧ b3 < 0xC0) && utf8Valid r
      | _ => false
    else false

/-- The `parse_string` method: varint length, then that many bytes,
which must be valid UTF-8 (`from_utf8(..).unwrap()` panics otherwise). -/
def parseString (st : PState) : PResult (List Nat) :=
  match parseLength st with
  | .error e => .error e
  | .ok (len, st') =>
    match takeBytes len st' with
    | .error e => .error e
    | .ok (bs, st'') =>
      if utf8Valid bs then .ok (bs, st'') else .error .utf8Unwrap

/-- The `parse_primitive_type` method: the byte-to-`PrimitiveType`
table (1..18, skipping 4). -/
def parsePrimitiveType (st : PState) : PResult PrimitiveType :=
  match parseU8 st with
  | .error e => .error e
  | .ok (b, st') =>
    match b with
    | 1 => .ok (.Boolean, st')
    | 2 => .ok (.Byte, st')
    | 3 => .ok (.Char, st')
    | 5 => .ok (.Decimal, st')
    | 6 => .ok (.Double, st')
    | 7 => .ok (.Int16, st')
    | 8 => .ok (.Int32, st')
    | 9 => .ok (.Int64, st')
    | 10 => .ok (.Int8, st')
    | 11 => .ok (.Single, st')
    | 12 => .ok (.TimeSpan, st')
    | 13 => .ok (.DateTime, st')
    | 14 => .ok (.UInt16, st')
    | 15 => .ok (.UInt32, st')
    | 16 => .ok (.UInt64, st')
    | 17 => .ok (.Null, st')
    | 18 => .ok (.String, st')
    | other => .error (.unknownPrimitiveType other)

/-- The `parse_primitive` method.  Multi-byte numeric payloads are read
little-endian into the bit pattern; `Char` is `todo!()` in the source. -/
def parsePrimitive (t : PrimitiveType) (st : PState) : PResult Primitive :=
  match t with
  | .Boolean =>
    match parseU8 st with
    | .error e => .error e
    | .ok (b, st') => .ok (.Boolean (b != 0), st')
  | .Byte =>
    match parseU8 st with
    | .error e => .error e
    | .ok (b, st') => .ok (.Byte b, st')
  | .Char => .error .todoChar
  | .Decimal =>
    match parseString st with
    | .error e => .error e
    | .ok (s, st') => .ok (.Decimal s, st')
  | .Double =>
    match takeBytes 8 st with
    | .error e => .error e
    | .ok (bs, st') => .ok (.Double (leNat bs), st')
  | .Int16 =>
    match takeBytes 2 st with
    | .error e => .error e
    | .ok (bs, st') => .ok (.Int16 (leNat bs), st')
  | .Int32 =>
    match takeBytes 4 st with
    | .error e => .error e
    | .ok (bs, st') => .ok (.Int32 (leNat bs), st')
  | .Int64 =>
    match takeBytes 8 st with
    | .error e => .error e
    | .ok (bs, st') => .ok (.Int64 (leNat bs), st')
  | .Int8 =>
    match parseU8 st with
    | .error e => .error e
    | .ok (b, st') => .ok (.Int8 b, st')
  | .Single =>
    match takeBytes 4 st with
    | .error e => .error e
    | .ok (bs, st') => .ok (.Single (leNat bs), st')
  | .TimeSpan =>
    match takeBytes 8 st with
    | .error e => .error e
    | .ok (bs, st') => .ok (.TimeSpan (leNat bs), st')
  | .DateTime =>
    match takeBytes 8 st with
    | .error e => .error e
    | .ok (bs, st') => .ok (.DateTime (leNat bs), st')
  | .UInt16 =>
    match takeBytes 2 st with
    | .error e => .error e
    | .ok (bs, st') => .ok (.UInt16 (leNat bs), st')
  | .UInt32 =>
    match takeBytes 4 st with
    | .error e => .error e
    | .ok (bs, st') => .ok (.UInt32 (leNat bs), st')
  | .UInt64 =>
    match takeBytes 8 st with
    | .error e => .error e
    | .ok (bs, st') => .ok (.UInt64 (leNat bs), st')
  | .Null => .ok (.Null, st)
  | .String =>
    match parseString st with
    | .error e => .error e
    | .ok (s, st') => .ok (.String s, st')

/-- The `parse_member_type` method: the tag byte was already consumed
and is passed in; additional info is read from the stream. -/
def parseMemberType (t : Nat) (st : PState) : PResult MemberType :=
  match t with
  | 0 =>
    match parsePrimitiveType st with
    | .error e => .error e
    | .ok (p, st') => .ok (.Primitive p, st')
  | 1 => .ok (.String, st)
  | 2 => .ok (.Object, st)
  | 3 =>
    match parseString st with
    | .error e => .error e
    | .ok (s, st') => .ok (.SystemClass s, st')
  | 4 =>
    match parseString st with
    | .error e => .error e
    | .ok (s, st') =>
      match parseI32 st' with
      | .error e => .error e
      | .ok (i, st'') => .ok (.Class s i, st'')
  | 5 => .ok (.ObjectArray, st)
  | 6 => .ok (.StringArray, st)
  | 7 =>
    match parsePrimitiveType st with
    | .error e => .error e
    | .ok (p, st') => .ok (.PrimitiveArray p, st')
  | other => .error (.unknownMemberType other)

/-- Parsing of the deferred additional info for a run of member-type
tag bytes (the body of `parse_member_types`' loop). -/
def parseMemberTypesAux : List Nat → PState → PResult (List MemberType)
  | [], st => .ok ([], st)
  | t :: ts, st =>
    match parseMemberType t st with
    | .error e => .error e
    | .ok (mt, st') =>
      match parseMemberTypesAux ts st' with
      | .error e => .error e
      | .ok (mts, st'') => .ok (mt :: mts, st'')

/-- The `parse_member_types` method: all tag bytes are taken first as a
contiguous run, then each is elaborated (reading its additional info). -/
def parseMemberTypes (count : Nat) (st : PState) : PResult (List MemberType) :=
  match takeBytes count st with
  | .error e => .error e
  | .ok (tags, st') => parseMemberTypesAux tags st'

/-- The member-name loop of `parse_class_info`. -/
def parseStrings : Nat → PState → PResult (List (List Nat))
  | 0, st => .ok ([], st)
  | n + 1, st =>
    match parseString st with
    | .error e => .error e
    | .ok (s, st') =>
      match parseStrings n st' with
      | .error e => .error e
      | .ok (ss, st'') => .ok (s :: ss, st'')

/-- The `parse_class_info` method: id, class name, member count
(an `i32` cast to `usize`), then that many member names. -/
def parseClassInfo (st : PState) : PResult (Nat × List Nat × List (List Nat)) :=
  match parseI32 st with
  | .error e => .error e
  | .ok (id, st1) =>
    match parseString st1 with
    | .error e => .error e
    | .ok (name, st2) =>
      match parseI32 st2 with
      | .error e => .error e
      | .ok (count, st3) =>
        match parseStrings (usizeOfI32 count) st3 with
        | .error e => .error e
        | .ok (names, st4) => .ok ((id, name, names), st4)

/-- The `add_record` method: duplicate ids are a typed error, otherwise
the record is appended (insertion order models `HashMap` iteration). -/
def addRecord (id : Nat) (r : Record) (st : PState) : Except PError PState :=
  match lookupA st.records id with
  | some _ => .error (.duplicateRecord id)
  | none => .ok { st with records := st.records ++ [(id, r)] }

/-- The primitive-element loop of `parse_array_single_primitive`. -/
def parsePrimitives (t : PrimitiveType) : Nat → PState → PResult (List Primitive)
  | 0, st => .ok ([], st)
  | n + 1, st =>
    match parsePrimitive t st with
    | .error e => .error e
    | .ok (v, st') =>
      match parsePrimitives t n st' with
      | .error e => .error e
      | .ok (vs, st'') => .ok (v :: vs, st'')

/-- The `parse_binary_library` method. -/
def parseBinaryLibrary (st : PState) : PResult (Nat × Record) :=
  match parseI32 st with
  | .error e => .error e
  | .ok (id, st1) =>
    match parseString st1 with
    | .error e => .error e
    | .ok (name, st2) => .ok ((id, .BinaryLibrary name), st2)

/-- The `parse_binary_object_string` method. -/
def parseBinaryObjectString (st : PState) : PResult (Nat × Record) :=
  match parseI32 st with
  | .error e => .error e
  | .ok (id, st1) =>
    match parseString st1 with
    | .error e => .error e
    | .ok (s, st2) => .ok ((id, .String s), st2)

/-- The `parse_array_single_primitive` method (record tag 15). -/
def parseArraySinglePrimitive (st : PState) : PResult (Nat × Record) :=
  match parseI32 st with
  | .error e => .error e
  | .ok (id, st1) =>
    match parseI32 st1 with
    | .error e => .error e
    | .ok (len, st2) =>
      match parsePrimitiveType st2 with
      | .error e => .error e
      | .ok (t, st3) =>
        match parsePrimitives t (usizeOfI32 len) st3 with
        | .error e => .error e
        | .ok (vs, st4) => .ok ((id, .PrimitiveArray t vs), st4)

/-! ## Length facts about the byte-level readers

These record that each reader only consumes input; they justify
termination of the mutually recursive record parser below. -/

theorem parseU8_len {st : PState} {b : Nat} {st' : PState}
    (h : parseU8 st = .ok (b, st')) : st'.bytes.length + 1 = st.bytes.length := by
  cases hb : st.bytes with
  | nil => simp [parseU8, hb] at h
  | cons x xs =>
      simp only [parseU8, hb] at h
      obtain ⟨h1, h2⟩ := by simpa using h
      subst h2
      simp [hb]

theorem takeBytes_len {n : Nat} {st : PState} {bs : List Nat} {st' : PState}
    (h : takeBytes n st = .ok (bs, st')) : st'.bytes.length + n = st.bytes.length := by
  unfold takeBytes at h
  split at h
  · simp at h
  · next hn =>
      obtain ⟨h1, h2⟩ := by simpa using h
      subst h2
      simp only [List.length_drop]
      omega

theorem parseI32_len {st : PState} {v : Nat} {st' : PState}
    (h : parseI32 st = .ok (v, st')) : st'.bytes.length + 4 = st.bytes.length := by
  unfold parseI32 at h
  split at h
  · simp at h
  · next bs st2 heq =>
      obtain ⟨h1, h2⟩ := by simpa using h
      subst h2
      exact takeBytes_len heq

theorem parseLengthAux_le {k i acc : Nat} {st : PState} {v : Nat} {st' : PState}
    (h : parseLengthAux k i acc st = .ok (v, st')) :
    st'.bytes.length ≤ st.bytes.length := by
  induction k generalizing i acc st with
  | zero =>
      obtain ⟨h1, h2⟩ := by simpa [parseLengthAux] using h
      subst h2; exact Nat.le_refl _
  | succ k ih =>
      unfold parseLengthAux at h
      split at h
      · simp at h
      · next b st1 heq =>
          have hu := parseU8_len heq
          split at h
          · obtain ⟨h1, h2⟩ := by simpa using h
            subst h2; omega
          · have := ih h
            omega

theorem parseLength_lt {st : PState} {v : Nat} {st' : PState}
    (h : parseLength st = .ok (v, st')) : st'.bytes.length < st.bytes.length := by
  unfold parseLength parseLengthAux at h
  split at h
  · simp at h
  · next b st1 heq =>
      have hu := parseU8_len heq
      split at h
      · obtain ⟨h1, h2⟩ := by simpa using h
        subst h2; omega
      · have := parseLengthAux_le h
        omega

theorem parseString_lt {st : PState} {s : List Nat} {st' : PState}
    (h : parseString st = .ok (s, st')) : st'.bytes.length < st.bytes.length := by
  unfold parseString at h
  split at h
  · simp at h
  · next len st1 heq =>
      have h1 := parseLength_lt heq
      split at h
      · simp at h
      · next bs st2 heq2 =>
          have h2 := takeBytes_len heq2
          split at h
          · obtain ⟨ha, hb⟩ := by simpa using h
            subst hb; omega
          · simp at h

theorem parsePrimitiveType_lt {st : PState} {p : PrimitiveType} {st' : PState}
    (h : parsePrimitiveType st = .ok (p, st')) :
    st'.bytes.length < st.bytes.length := by
  unfold parsePrimitiveType at h
  split at h
  · simp at h
  · next b st1 heq =>
      have hu := parseU8_len heq
      split at h <;>
        first
        | exact Except.noConfusion h
        | (obtain ⟨h1, h2⟩ := by simpa using h
           subst h2; omega)

theorem parsePrimitive_le {t : PrimitiveType} {st : PState} {v : Primitive}
    {st' : PState} (h : parsePrimitive t st = .ok (v, st')) :
    st'.bytes.length ≤ st.bytes.length := by
  cases t <;> simp only [parsePrimitive] at h <;>
    first
    | exact Except.noConfusion h
    | (obtain ⟨h1, h2⟩ := by simpa using h
       subst h2; exact Nat.le_refl _)
    | (split at h
       · exact Except.noConfusion h
       · next x stx heq =>
           obtain ⟨h1, h2⟩ := by simpa using h
           subst h2
           first
           | (have hlen := parseU8_len heq; omega)
           | (have hlen := takeBytes_len heq; omega)
           | (have hlen := parseString_lt heq; omega))

theorem parseI32_len2 {st : PState} {v : Nat} {st' : PState}
    (h : parseI32 st = .ok (v, st')) : st'.bytes.length ≤ st.bytes.length := by
  have := parseI32_len h; omega

theorem parseMemberType_le {t : Nat} {st : PState} {mt : MemberType} {st' : PState}
    (h : parseMemberType t st = .ok (mt, st')) :
    st'.bytes.length ≤ st.bytes.length := by
  unfold parseMemberType at h
  split at h <;>
    first
    | exact Except.noConfusion h
    | (obtain ⟨h1, h2⟩ := by simpa using h
       subst h2; exact Nat.le_refl _)
    | (split at h
       · exact Except.noConfusion h
       · next x stx heq =>
           first
           | (obtain ⟨h1, h2⟩ := by simpa using h
              subst h2
              first
              | (have hlen := parsePrimitiveType_lt heq; omega)
              | (have hlen := parseString_lt heq; omega))
           | (split at h
              · exact Except.noConfusion h
              · next y sty heq2 =>
                  obtain ⟨h1, h2⟩ := by simpa using h
                  subst h2
                  have ha := parseString_lt heq
                  have hb := parseI32_len heq2
                  omega))

theorem parseMemberTypesAux_le {ts : List Nat} {st : PState}
    {mts : List MemberType} {st' : PState}
    (h : parseMemberTypesAux ts st = .ok (mts, st')) :
    st'.bytes.length ≤ st.bytes.length := by
  induction ts generalizing st mts with
  | nil =>
      obtain ⟨h1, h2⟩ := by simpa [parseMemberTypesAux] using h
      subst h2; exact Nat.le_refl _
  | cons t ts ih =>
      unfold parseMemberTypesAux at h
      split at h
      · simp at h
      · next mt st1 heq =>
          have h1 := parseMemberType_le heq
          split at h
          · simp at h
          · next mts2 st2 heq2 =>
              obtain ⟨ha, hb⟩ := by simpa using h
              subst hb
              have := ih heq2
              omega

theorem parseMemberTypes_le {n : Nat} {st : PState} {mts : List MemberType}
    {st' : PState} (h : parseMemberTypes n st = .ok (mts, st')) :
    st'.bytes.length ≤ st.bytes.length := by
  unfold parseMemberTypes at h
  split at h
  · simp at h
  · next tags st1 heq =>
      have h1 := takeBytes_len heq
      have h2 := parseMemberTypesAux_le h
      omega

theorem parseStrings_le {n : Nat} {st : PState} {ss : List (List Nat)}
    {st' : PState} (h : parseStrings n st = .ok (ss, st')) :
    st'.bytes.length ≤ st.bytes.length := by
  induction n generalizing st ss with
  | zero =>
      obtain ⟨h1, h2⟩ := by simpa [parseStrings] using h
      subst h2; exact Nat.le_refl _
  | succ n ih =>
      unfold parseStrings at h
      split at h
      · simp at h
      · next s st1 heq =>
          have h1 := parseString_lt heq
          split at h
          · simp at h
          · next ss2 st2 heq2 =>
              obtain ⟨ha, hb⟩ := by simpa using h
              subst hb
              have := ih heq2
              omega

theorem parseClassInfo_lt {st : PState} {r : Nat × List Nat × List (List Nat)}
    {st' : PState} (h : parseClassInfo st = .ok (r, st')) :
    st'.bytes.length < st.bytes.length := by
  unfold parseClassInfo at h
  split at h
  · simp at h
  · next id st1 heq1 =>
      have h1 := parseI32_len heq1
      split at h
      · simp at h
      · next name st2 heq2 =>
          have h2 := parseString_lt heq2
          split at h
          · simp at h
          · next count st3 heq3 =>
              have h3 := parseI32_len heq3
              split at h
              · simp at h
              · next names st4 heq4 =>
                  obtain ⟨ha, hb⟩ := by simpa using h
                  subst hb
                  have := parseStrings_le heq4
                  omega

/-! ## The mutually recursive record parser -/

/-- Expansion performed by the member loops: `NullMultiple(count)` pushes
`count as usize` individual `Null`s, any other member is pushed as is. -/
def expandMember : Member → List Member
  | .NullMultiple count => List.replicate (usizeOfI32 count) Member.Null
  | m => [m]

mutual

/-- The `parse_class_with_id` method (record tag 1, tag byte consumed by
the caller): `class_metadata[&metadata_id]` is a panicking `HashMap`
index, `class_types[class_type_id]` a panicking `Vec` index. -/
def parseClassWithId (st : PState) : PResult (Nat × Record) :=
  match h1 : parseI32 st with
  | .error e => .error e
  | .ok (id, st1) =>
    match h2 : parseI32 st1 with
    | .error e => .error e
    | .ok (mid, st2) =>
      match lookupA st2.class_metadata mid with
      | none => .error (.missingClassMetadata mid)
      | some ctid =>
        match st2.class_types[ctid]? with
        | none => .error (.classTypeIndex ctid)
        | some ct =>
          match parseMembers ct.member_types st2 with
          | .error e => .error e
          | .ok (members, st3) => .ok ((id, .Class ⟨ctid, members⟩), st3)
termination_by (st.bytes.length, 0)
decreasing_by
  all_goals simp_wf
  have a1 := parseI32_len h1
  have a2 := parseI32_len h2
  exact Prod.Lex.left _ _ (by omega)

/-- The `parse_system_class_with_members_and_type` method (record tag 4).
Note the source computes `class_type_id = self.class_types.len()` only
after `parse_members` has run (so nested class declarations inside the
members take earlier indices), then records the metadata id and pushes
the new `ClassType` with `library_id = 0, system_class = true`. -/
def parseSystemClassWMT (st : PState) : PResult (Nat × Record) :=
  match h1 : parseClassInfo st with
  | .error e => .error e
  | .ok ((id, name, names), st1) =>
    match h2 : parseMemberTypes names.length st1 with
    | .error e => .error e
    | .ok (types, st2) =>
      match parseMembers types st2 with
      | .error e => .error e
      | .ok (members, st3) =>
        let ctid := st3.class_types.length
        .ok ((id, .Class ⟨ctid, members⟩),
          { st3 with
            class_metadata := st3.class_metadata ++ [(id, ctid)],
            class_types := st3.class_types ++ [⟨name, 0, true, names, types⟩] })
termination_by (st.bytes.length, 0)
decreasing_by
  all_goals simp_wf
  have a1 := parseClassInfo_lt h1
  have a2 := parseMemberTypes_le h2
  exact Prod.Lex.left _ _ (by omega)

/-- The `parse_class_with_members_and_type` method (record tag 5): like
tag 4 but an explicit `library_id` is read between the member types and
the members, and `system_class = false`. -/
def parseClassWMT (st : PState) : PResult (Nat × Record) :=
  match h1 : parseClassInfo st with
  | .error e => .error e
  | .ok ((id, name, names), st1) =>
    match h2 : parseMemberTypes names.length st1 with
    | .error e => .error e
    | .ok (types, st2) =>
      match h3 : parseI32 st2 with
      | .error e => .error e
      | .ok (libraryId, st3) =>
        match parseMembers types st3 with
        | .error e => .error e
        | .ok (members, st4) =>
          let ctid := st4.class_types.length
          .ok ((id, .Class ⟨ctid, members⟩),
            { st4 with
              class_metadata := st4.class_metadata ++ [(id, ctid)],
              class_types := st4.class_types ++ [⟨name, libraryId, false, names, types⟩] })
termination_by (st.bytes.length, 0)
decreasing_by
  all_goals simp_wf
  have a1 := parseClassInfo_lt h1
  have a2 := parseMemberTypes_le h2
  have a3 := parseI32_len h3
  exact Prod.Lex.left _ _ (by omega)

/-- The `parse_binary_array` method (record tag 7): only
`array_type == 0` and `rank == 1` are supported (`todo!` otherwise). -/
def parseBinaryArray (st : PState) : PResult (Nat × Record) :=
  match h1 : parseI32 st with
  | .error e => .error e
  | .ok (id, st1) =>
    match h2 : parseU8 st1 with
    | .error e => .error e
    | .ok (arrayType, st2) =>
      if arrayType ≠ 0 then .error (.todoArrayType arrayType)
      else
        match h3 : parseI32 st2 with
        | .error e => .error e
        | .ok (rank, st3) =>
          if rank ≠ 1 then .error (.todoArrayRank rank)
          else
            match h4 : parseI32 st3 with
            | .error e => .error e
            | .ok (len, st4) =>
              match h5 : parseU8 st4 with
              | .error e => .error e
              | .ok (mtb, st5) =>
                match h6 : parseMemberType mtb st5 with
                | .error e => .error e
                | .ok (mt, st6) =>
                  match parseArrayVals mt (usizeOfI32 len) [] st6 with
                  | .error e => .error e
                  | .ok (vals, st7) => .ok ((id, .BinaryArray mt vals), st7)
termination_by (st.bytes.length, 0)
decreasing_by
  all_goals simp_wf
  have a1 := parseI32_len h1
  have a2 := parseU8_len h2
  have a3 := parseI32_len h3
  have a4 := parseI32_len h4
  have a5 := parseU8_len h5
  have a6 := parseMemberType_le h6
  exact Prod.Lex.left _ _ (by omega)

/-- The element loop of `parse_binary_array`: `while vals.len() < length`,
with `NullMultiple` expansion.  The progress check mirrors the fact that
each iteration either consumes input or (for raw primitive members)
pushes at least one element; it never fails. -/
def parseArrayVals (t : MemberType) (target : Nat) (vals : List Member)
    (st : PState) : PResult (List Member) :=
  if hlt : vals.length < target then
    match hm : parseMember t st with
    | .error e => .error e
    | .ok (m, st') =>
      if hpr : st'.bytes.length < st.bytes.length ∨
          (st'.bytes.length = st.bytes.length ∧
            target - (vals ++ expandMember m).length < target - vals.length) then
        parseArrayVals t target (vals ++ expandMember m) st'
      else .error .progressCheck
  else .ok (vals, st)
termination_by (st.bytes.length, target - vals.length)
decreasing_by
  all_goals simp_wf
  · exact Prod.Lex.right _ (by omega)
  · rcases hpr with hb | ⟨heq, hcount⟩
    · exact Prod.Lex.left _ _ hb
    · rw [heq]
      refine Prod.Lex.right _ ?_
      simp only [List.length_append] at hcount
      omega

/-- The `parse_members` method: one member token is parsed per declared
member type (the loop index advances by one even when `NullMultiple`
expands to several `Null`s — exactly as in the source). -/
def parseMembers (types : List MemberType) (st : PState) :
    PResult (List Member) :=
  match types with
  | [] => .ok ([], st)
  | t :: ts =>
    match hm : parseMember t st with
    | .error e => .error e
    | .ok (m, st') =>
      if hpr : st'.bytes.length ≤ st.bytes.length then
        match parseMembers ts st' with
        | .error e => .error e
        | .ok (ms, st'') => .ok (expandMember m ++ ms, st'')
      else .error .progressCheck
termination_by (st.bytes.length, types.length)
decreasing_by
  all_goals simp_wf
  · exact Prod.Lex.right _ (by (try simp only [List.length_cons]); omega)
  · rcases eq_or_lt_of_le hpr with heq | hb
    · rw [heq]
      exact Prod.Lex.right _ (by (try simp only [List.length_cons]); omega)
    · exact Prod.Lex.left _ _ hb

/-- The `parse_member` method: a raw primitive payload for
`MemberType::Primitive` positions, otherwise a member tag byte
dispatching to an inline nested record (tags 1, 4, 5, 15, 6, 7 — which
is registered via `add_record` and referenced), a `MemberReference`
(tag 9), `ObjectNull` (tag 10) or a null run (tags 13, 14). -/
def parseMember (t : MemberType) (st : PState) : PResult Member :=
  match t with
  | .Primitive p =>
    match parsePrimitive p st with
    | .error e => .error e
    | .ok (v, st') => .ok (.Primitive v, st')
  | _ =>
    match hu : parseU8 st with
    | .error e => .error e
    | .ok (tag, st1) => parseMemberTagged tag st1
termination_by (st.bytes.length, 0)
decreasing_by
  all_goals simp_wf
  have a1 := parseU8_len hu
  exact Prod.Lex.left _ _ (by omega)

/-- The member-tag dispatch of `parse_member` (tag byte consumed). -/
def parseMemberTagged (tag : Nat) (st1 : PState) : PResult Member :=
  match tag with
  | 1 =>
    match parseClassWithId st1 with
    | .error e => .error e
    | .ok ((id, r), st2) =>
      match addRecord id r st2 with
      | .error e => .error e
      | .ok st3 => .ok (.Reference id, st3)
  | 4 =>
    match parseSystemClassWMT st1 with
    | .error e => .error e
    | .ok ((id, r), st2) =>
      match addRecord id r st2 with
      | .error e => .error e
      | .ok st3 => .ok (.Reference id, st3)
  | 5 =>
    match parseClassWMT st1 with
    | .error e => .error e
    | .ok ((id, r), st2) =>
      match addRecord id r st2 with
      | .error e => .error e
      | .ok st3 => .ok (.Reference id, st3)
  | 15 =>
    match parseArraySinglePrimitive st1 with
    | .error e => .error e
    | .ok ((id, r), st2) =>
      match addRecord id r st2 with
      | .error e => .error e
      | .ok st3 => .ok (.Reference id, st3)
  | 6 =>
    match parseBinaryObjectString st1 with
    | .error e => .error e
    | .ok ((id, r), st2) =>
      match addRecord id r st2 with
      | .error e => .error e
      | .ok st3 => .ok (.Reference id, st3)
  | 7 =>
    match parseBinaryArray st1 with
    | .error e => .error e
    | .ok ((id, r), st2) =>
      match addRecord id r st2 with
      | .error e => .error e
      | .ok st3 => .ok (.Reference id, st3)
  | 9 =>
    match parseI32 st1 with
    | .error e => .error e
    | .ok (id, st2) => .ok (.Reference id, st2)
  | 10 => .ok (.Null, st1)
  | 14 =>
    match parseI32 st1 with
    | .error e => .error e
    | .ok (count, st2) => .ok (.NullMultiple count, st2)
  | 13 =>
    match parseU8 st1 with
    | .error e => .error e
    | .ok (count, st2) => .ok (.NullMultiple count, st2)
  | other => .error (.unexpectedMemberTag other)
termination_by (st1.bytes.length, 1)
decreasing_by
  all_goals simp_wf
  all_goals exact Prod.Lex.right _ (by omega)

/-- The `parse_record` method: dispatch on the record tag byte. -/
def parseRecordTop (st : PState) : PResult (Nat × Record) :=
  match parseU8 st with
  | .error e => .error e
  | .ok (tag, st1) =>
    match tag with
    | 1 => parseClassWithId st1
    | 4 => parseSystemClassWMT st1
    | 5 => parseClassWMT st1
    | 6 => parseBinaryObjectString st1
    | 7 => parseBinaryArray st1
    | 12 => parseBinaryLibrary st1
    | 15 => parseArraySinglePrimitive st1
    | other => .error (.unknownRecordType other)

/-- The record loop of `parse`: while the next byte is not the
`MESSAGE_END` terminator (11), parse one record and register it. -/
def parseLoop (st : PState) : Except PError PState :=
  match peekByte st with
  | .error e => .error e
  | .ok b =>
    if b = 11 then .ok st
    else
      match parseRecordTop st with
      | .error e => .error e
      | .ok ((id, r), st1) =>
        match addRecord id r st1 with
        | .error e => .error e
        | .ok st2 =>
          if hpr : st2.bytes.length < st.bytes.length then parseLoop st2
          else .error .progressCheck
termination_by st.bytes.length
decreasing_by
  all_goals simp_wf
  exact hpr

end

/-- The `parse` entry point: the `0x00` header byte, the four header
integers (the version pair is checked by `assert!`, i.e. a panic), then
the record loop; bytes after the terminator are ignored. -/
def parse (bytes : List Nat) : Except PError DeserializedRecord :=
  let st0 : PState := ⟨bytes, [], [], []⟩
  match parseU8 st0 with
  | .error e => .error e
  | .ok (magic, st1) =>
    if magic ≠ 0 then .error (.headerByte magic)
    else
      match parseI32 st1 with
      | .error e => .error e
      | .ok (rootId, st2) =>
        match parseI32 st2 with
        | .error e => .error e
        | .ok (headerId, st3) =>
          match parseI32 st3 with
          | .error e => .error e
          | .ok (major, st4) =>
            match parseI32 st4 with
            | .error e => .error e
            | .ok (minor, st5) =>
              if major ≠ 1 then .error (.assertMajorVersion major)
              else if minor ≠ 0 then .error (.assertMinorVersion minor)
              else
                match parseLoop st5 with
                | .error e => .error e
                | .ok st6 => .ok ⟨rootId, headerId, st6.records, st6.class_types⟩

/-! ## The serializer (`serializer.rs`)

Panics of the serializer (the `assert!` in `write_string`, `todo!()` for
`Char`, `panic!` for a non-primitive member in a primitive position,
`rec.records[&id]` and `class_types[..]` indexing) are modelled by
`Option`: `none` is an abort.  The `order` field is a ghost variable
recording the ids in emission order; it influences no byte of output. -/

/-- The varint loop of `write_string`: emit seven bits at a time, setting
the high bit when more remain. -/
def writeLength (L : Nat) : List Nat :=
  if L < 128 then [L] else (L % 128 + 128) :: writeLength (L / 128)
termination_by L
decreasing_by exact Nat.div_lt_self (by omega) (by omega)

/-- Serializer state: the `Serializer` struct of `serializer.rs` plus the
ghost emission `order`. -/
structure SState where
  output : List Nat
  todo : List Nat
  done : List Nat
  class_metadata : List (Nat × Nat)
  order : List Nat
  deriving DecidableEq

/-- The `write_u8` method. -/
def writeU8 (v : Nat) (st : SState) : SState :=
  { st with output := st.output ++ [v] }

/-- The `write_i32` method: four little-endian bytes of the bit pattern. -/
def writeI32 (v : Nat) (st : SState) : SState :=
  { st with output := st.output ++ leBytes 4 v }

/-- The `write_string` method: `assert!(length <= 0x7FFF_FFFF)` panics on
overlong strings, then the varint length and the raw bytes. -/
def writeString (s : List Nat) (st : SState) : Option SState :=
  if s.length ≤ 0x7FFFFFFF then
    some { st with output := st.output ++ writeLength s.length ++ s }
  else none

/-- The `add_todo` method: enqueue an id unless it is already `done`,
marking it `done` at enqueue time. -/
def addTodo (id : Nat) (st : SState) : SState :=
  if id ∈ st.done then st
  else { st with done := id :: st.done, todo := st.todo ++ [id] }

/-- The `write_primitive_type` method. -/
def writePrimitiveType (t : PrimitiveType) (st : SState) : SState :=
  writeU8
    (match t with
     | .Boolean => 1
     | .Byte => 2
     | .Char => 3
     | .Decimal => 5
     | .Double => 6
     | .Int16 => 7
     | .Int32 => 8
     | .Int64 => 9
     | .Int8 => 10
     | .Single => 11
     | .TimeSpan => 12
     | .DateTime => 13
     | .UInt16 => 14
     | .UInt32 => 15
     | .UInt64 => 16
     | .Null => 17
     | .String => 18) st

/-- The `write_primitive` method; `Char` is `todo!()`. -/
def writePrimitive (v : Primitive) (st : SState) : Option SState :=
  match v with
  | .Boolean b => some (writeU8 (if b then 1 else 0) st)
  | .Byte x => some (writeU8 x st)
  | .Char _ => none
  | .Decimal s => writeString s st
  | .Double bits => some { st with output := st.output ++ leBytes 8 bits }
  | .Int16 bits => some { st with output := st.output ++ leBytes 2 bits }
  | .Int32 bits => some { st with output := st.output ++ leBytes 4 bits }
  | .Int64 bits => some { st with output := st.output ++ leBytes 8 bits }
  | .Int8 bits => some (writeU8 bits st)
  | .Single bits => some { st with output := st.output ++ leBytes 4 bits }
  | .TimeSpan bits => some { st with output := st.output ++ leBytes 8 bits }
  | .DateTime bits => some { st with output := st.output ++ leBytes 8 bits }
  | .UInt16 x => some { st with output := st.output ++ leBytes 2 x }
  | .UInt32 x => some { st with output := st.output ++ leBytes 4 x }
  | .UInt64 x => some { st with output := st.output ++ leBytes 8 x }
  | .Null => some st
  | .String s => writeString s st

/-- The `write_member_type` method: only the tag byte. -/
def writeMemberType (t : MemberType) (st : SState) : SState :=
  writeU8
    (match t with
     | .Primitive _ => 0
     | .String => 1
     | .Object => 2
     | .SystemClass _ => 3
     | .Class _ _ => 4
     | .ObjectArray => 5
     | .StringArray => 6
     | .PrimitiveArray _ => 7) st

/-- The `write_member_type_additional_info` method. -/
def writeMemberTypeAdditionalInfo (t : MemberType) (st : SState) : Option SState :=
  match t with
  | .Primitive p => some (writePrimitiveType p st)
  | .SystemClass name => writeString name st
  | .Class name libId =>
    match writeString name st with
    | none => none
    | some st' => some (writeI32 libId st')
  | .PrimitiveArray p => some (writePrimitiveType p st)
  | _ => some st

/-- The `write_member` method.  In a `Primitive` position only the raw
payload is written (a non-primitive member there is a `panic!`);
otherwise the member tag, with `Reference` ids enqueued via `add_todo`
and the signed comparison `*count < 0x100` deciding between
`ObjectNullMultiple256` (tag 13) and `ObjectNullMultiple` (tag 14). -/
def writeMember (m : Member) (t : MemberType) (st : SState) : Option SState :=
  match t with
  | .Primitive _ =>
    match m with
    | .Primitive v => writePrimitive v st
    | _ => none
  | _ =>
    match m with
    | .Primitive v => writePrimitive v (writePrimitiveType v.primitiveType (writeU8 8 st))
    | .Reference id => some (addTodo id (writeI32 id (writeU8 9 st)))
    | .Null => some (writeU8 10 st)
    | .NullMultiple count =>
      if count < 256 ∨ 2 ^ 31 ≤ count then
        some (writeU8 (count % 256) (writeU8 13 st))
      else some (writeI32 count (writeU8 14 st))

/-- The member loop of `write_record`: `members.iter().zip(member_types)`. -/
def writeMembers : List (Member × MemberType) → SState → Option SState
  | [], st => some st
  | (m, t) :: rest, st =>
    match writeMember m t st with
    | none => none
    | some st' => writeMembers rest st'

/-- The member-name loop of `write_class_type`. -/
def writeStringsS : List (List Nat) → SState → Option SState
  | [], st => some st
  | s :: rest, st =>
    match writeString s st with
    | none => none
    | some st' => writeStringsS rest st'

/-- The member-type tag loop of `write_class_type` (pure). -/
def writeMemberTypesS : List MemberType → SState → SState
  | [], st => st
  | t :: rest, st => writeMemberTypesS rest (writeMemberType t st)

/-- The additional-info loop of `write_class_type`. -/
def writeAdditionalInfoS : List MemberType → SState → Option SState
  | [], st => some st
  | t :: rest, st =>
    match writeMemberTypeAdditionalInfo t st with
    | none => none
    | some st' => writeAdditionalInfoS rest st'

/-- The payload loop of `write_record` for `PrimitiveArray`. -/
def writePrimitivesS : List Primitive → SState → Option SState
  | [], st => some st
  | v :: rest, st =>
    match writePrimitive v st with
    | none => none
    | some st' => writePrimitivesS rest st'

/-- The `write_class_type` method: id, name, member count, all names,
all member-type tag bytes, then all additional info. -/
def writeClassType (id : Nat) (ct : ClassType) (st : SState) : Option SState :=
  match writeString ct.name (writeI32 id st) with
  | none => none
  | some st1 =>
    match writeStringsS ct.member_names (writeI32 ct.member_names.length st1) with
    | none => none
    | some st2 => writeAdditionalInfoS ct.member_types (writeMemberTypesS ct.member_types st2)

/-- The `write_record` method.  For a `Class`, `recs.class_type(class)`
is a panicking `Vec` index; system classes always emit tag 4, interned
classes emit tag 5 on first emission (recording
`class_metadata[class_type_id] = id`) and tag 1 afterwards. -/
def writeRecord (g : DeserializedRecord) (id : Nat) (r : Record) (st : SState) :
    Option SState :=
  match r with
  | .BinaryLibrary name => writeString name (writeI32 id (writeU8 12 st))
  | .Class c =>
    match g.class_types[c.class_type_id]? with
    | none => none
    | some ct =>
      let headerPart : Option SState :=
        if ct.system_class then writeClassType id ct (writeU8 4 st)
        else
          match lookupA st.class_metadata c.class_type_id with
          | some classId => some (writeI32 classId (writeI32 id (writeU8 1 st)))
          | none =>
            match writeClassType id ct (writeU8 5 st) with
            | none => none
            | some st' =>
              let st'' := writeI32 ct.library_id st'
              some { st'' with
                class_metadata := st''.class_metadata ++ [(c.class_type_id, id)] }
      match headerPart with
      | none => none
      | some st2 => writeMembers (c.members.zip ct.member_types) st2
  | .BinaryArray t vals =>
    let st1 :=
      writeMemberType t
        (writeI32 vals.length (writeI32 1 (writeU8 0 (writeI32 id (writeU8 7 st)))))
    match writeMemberTypeAdditionalInfo t st1 with
    | none => none
    | some st2 => writeMembers (vals.map (fun v => (v, t))) st2
  | .PrimitiveArray t vals =>
    writePrimitivesS vals (writePrimitiveType t (writeI32 vals.length (writeI32 id (writeU8 15 st))))
  | .String s => writeString s (writeI32 id (writeU8 6 st))

/-! ## Control-state evolution of the writers

Every writer except `add_todo` and the tag-5 metadata insertion touches
only `output`; these facts drive the termination of the emission loop
and the emission-order theorems. -/

/-- All serializer control state (everything except `output`) unchanged. -/
def sameCtl (st st' : SState) : Prop :=
  st'.todo = st.todo ∧ st'.done = st.done ∧
    st'.class_metadata = st.class_metadata ∧ st'.order = st.order

theorem sameCtl_refl (st : SState) : sameCtl st st := ⟨rfl, rfl, rfl, rfl⟩

theorem sameCtl_trans {st1 st2 st3 : SState} (h1 : sameCtl st1 st2)
    (h2 : sameCtl st2 st3) : sameCtl st1 st3 := by
  obtain ⟨a1, a2, a3, a4⟩ := h1
  obtain ⟨b1, b2, b3, b4⟩ := h2
  exact ⟨b1.trans a1, b2.trans a2, b3.trans a3, b4.trans a4⟩

theorem writeU8_sameCtl (v : Nat) (st : SState) : sameCtl st (writeU8 v st) :=
  ⟨rfl, rfl, rfl, rfl⟩

theorem writeI32_sameCtl (v : Nat) (st : SState) : sameCtl st (writeI32 v st) :=
  ⟨rfl, rfl, rfl, rfl⟩

theorem writePrimitiveType_sameCtl (t : PrimitiveType) (st : SState) :
    sameCtl st (writePrimitiveType t st) := ⟨rfl, rfl, rfl, rfl⟩

theorem writeMemberType_sameCtl (t : MemberType) (st : SState) :
    sameCtl st (writeMemberType t st) := ⟨rfl, rfl, rfl, rfl⟩

theorem writeMemberTypesS_sameCtl (ts : List MemberType) (st : SState) :
    sameCtl st (writeMemberTypesS ts st) := by
  induction ts generalizing st with
  | nil => exact sameCtl_refl st
  | cons t ts ih =>
      exact sameCtl_trans (writeMemberType_sameCtl t st) (ih _)

theorem writeString_sameCtl {s : List Nat} {st st' : SState}
    (h : writeString s st = some st') : sameCtl st st' := by
  unfold writeString at h
  split at h
  · obtain ⟨rfl⟩ := by simpa using h.symm
    exact ⟨rfl, rfl, rfl, rfl⟩
  · simp at h

theorem writePrimitive_sameCtl {v : Primitive} {st st' : SState}
    (h : writePrimitive v st = some st') : sameCtl st st' := by
  cases v <;> simp only [writePrimitive] at h <;>
    first
    | (exact Option.noConfusion h)
    | (obtain ⟨rfl⟩ := by simpa using h.symm
       exact ⟨rfl, rfl, rfl, rfl⟩)
    | (exact writeString_sameCtl h)

theorem writeMemberTypeAdditionalInfo_sameCtl {t : MemberType} {st st' : SState}
    (h : writeMemberTypeAdditionalInfo t st = some st') : sameCtl st st' := by
  cases t <;> simp only [writeMemberTypeAdditionalInfo] at h
  all_goals
    first
    | (obtain ⟨rfl⟩ := by simpa using h.symm
       exact ⟨rfl, rfl, rfl, rfl⟩)
    | (exact writeString_sameCtl h)
    | skip
  · next name libId =>
      rcases hs : writeString name st with _ | st1
      · rw [hs] at h; exact Option.noConfusion h
      · rw [hs] at h
        obtain ⟨rfl⟩ := by simpa using h.symm
        exact sameCtl_trans (writeString_sameCtl hs) (writeI32_sameCtl _ _)

theorem writeStringsS_sameCtl {ss : List (List Nat)} {st st' : SState}
    (h : writeStringsS ss st = some st') : sameCtl st st' := by
  induction ss generalizing st with
  | nil =>
      obtain ⟨rfl⟩ := by simpa [writeStringsS] using h.symm
      exact sameCtl_refl _
  | cons s ss ih =>
      unfold writeStringsS at h
      split at h
      · exact Option.noConfusion h
      · next st1 hs => exact sameCtl_trans (writeString_sameCtl hs) (ih h)

theorem writeAdditionalInfoS_sameCtl {ts : List MemberType} {st st' : SState}
    (h : writeAdditionalInfoS ts st = some st') : sameCtl st st' := by
  induction ts generalizing st with
  | nil =>
      obtain ⟨rfl⟩ := by simpa [writeAdditionalInfoS] using h.symm
      exact sameCtl_refl _
  | cons t ts ih =>
      unfold writeAdditionalInfoS at h
      split at h
      · exact Option.noConfusion h
      · next st1 hs =>
          exact sameCtl_trans (writeMemberTypeAdditionalInfo_sameCtl hs) (ih h)

theorem writePrimitivesS_sameCtl {vs : List Primitive} {st st' : SState}
    (h : writePrimitivesS vs st = some st') : sameCtl st st' := by
  induction vs generalizing st with
  | nil =>
      obtain ⟨rfl⟩ := by simpa [writePrimitivesS] using h.symm
      exact sameCtl_refl _
  | cons v vs ih =>
      unfold writePrimitivesS at h
      split at h
      · exact Option.noConfusion h
      · next st1 hs => exact sameCtl_trans (writePrimitive_sameCtl hs) (ih h)

theorem writeClassType_sameCtl {id : Nat} {ct : ClassType} {st st' : SState}
    (h : writeClassType id ct st = some st') : sameCtl st st' := by
  unfold writeClassType at h
  split at h
  · exact Option.noConfusion h
  · next st1 hs1 =>
      split at h
      · exact Option.noConfusion h
      · next st2 hs2 =>
          refine sameCtl_trans (sameCtl_trans (writeI32_sameCtl _ _)
            (writeString_sameCtl hs1)) ?_
          refine sameCtl_trans (sameCtl_trans (writeI32_sameCtl _ _)
            (writeStringsS_sameCtl hs2)) ?_
          exact sameCtl_trans (writeMemberTypesS_sameCtl _ _)
            (writeAdditionalInfoS_sameCtl h)

/-! ## Reference successors and reachability -/

/-- The reference id `write_member` enqueues for one member position:
none in a `Primitive` position (where a reference would be a panic),
otherwise the id of a `Reference` member. -/
def memberRefs (t : MemberType) (m : Member) : Option Nat :=
  match t with
  | .Primitive _ => none
  | _ =>
    match m with
    | .Reference i => some i
    | _ => none

/-- The reference ids `write_record` enqueues for a record, in emission
order: the references the member walk encounters. -/
def recordRefs (g : DeserializedRecord) : Record → List Nat
  | .Class c =>
    match g.class_types[c.class_type_id]? with
    | some ct => (c.members.zip ct.member_types).filterMap (fun p => memberRefs p.2 p.1)
    | none => []
  | .BinaryArray t vals => vals.filterMap (fun m => memberRefs t m)
  | _ => []

/-- Every id `add_todo` can ever see: the root, the record keys, and all
reference ids inside records. -/
def allIdsList (g : DeserializedRecord) : List Nat :=
  g.root_id :: (g.records.map Prod.fst ++ (g.records.map (fun p => recordRefs g p.2)).flatten)

theorem lookupA_mem {α : Type} {l : List (Nat × α)} {k : Nat} {v : α}
    (h : lookupA l k = some v) : (k, v) ∈ l := by
  induction l with
  | nil => simp [lookupA] at h
  | cons p rest ih =>
      obtain ⟨pk, pv⟩ := p
      unfold lookupA at h
      split at h
      · next heq =>
          obtain ⟨rfl⟩ := by simpa using h.symm
          subst heq
          exact List.mem_cons_self _ _
      · exact List.mem_cons_of_mem _ (ih h)

theorem recordRefs_subset_allIds {g : DeserializedRecord} {id : Nat} {r : Record}
    (h : lookupA g.records id = some r) :
    ∀ x ∈ recordRefs g r, x ∈ allIdsList g := by
  intro x hx
  have hmem := lookupA_mem h
  unfold allIdsList
  refine List.mem_cons_of_mem _ (List.mem_append_right _ ?_)
  rw [List.mem_flatten]
  exact ⟨recordRefs g r, List.mem_map.mpr ⟨(id, r), hmem, rfl⟩, hx⟩

/-- Evolution of `(done, todo)` across a writer call: `done` grows by a
batch of fresh ids drawn from `S`, and an empty batch leaves `todo`
untouched. -/
def StepsTo (S : List Nat) (st st' : SState) : Prop :=
  ∃ delta, st'.done = delta ++ st.done ∧ (∀ x ∈ delta, x ∈ S ∧ x ∉ st.done) ∧
    (delta = [] → st'.todo = st.todo)

theorem StepsTo_of_same {S : List Nat} {st st' : SState}
    (hd : st'.done = st.done) (ht : st'.todo = st.todo) : StepsTo S st st' :=
  ⟨[], by simpa using hd, by simp, fun _ => ht⟩

theorem StepsTo_of_sameCtl {S : List Nat} {st st' : SState}
    (h : sameCtl st st') : StepsTo S st st' :=
  StepsTo_of_same h.2.1 h.1

theorem StepsTo_mono {S S' : List Nat} {st st' : SState}
    (hss : ∀ x ∈ S, x ∈ S') (h : StepsTo S st st') : StepsTo S' st st' := by
  obtain ⟨delta, h1, h2, h3⟩ := h
  exact ⟨delta, h1, fun x hx => ⟨hss x (h2 x hx).1, (h2 x hx).2⟩, h3⟩

theorem StepsTo_addTodo {S : List Nat} {i : Nat} (st : SState) (hi : i ∈ S) :
    StepsTo S st (addTodo i st) := by
  unfold addTodo
  split
  · exact StepsTo_of_same rfl rfl
  · next hmem => exact ⟨[i], rfl, by simpa using ⟨hi, hmem⟩, by simp⟩

theorem StepsTo_trans {S : List Nat} {st1 st2 st3 : SState}
    (h1 : StepsTo S st1 st2) (h2 : StepsTo S st2 st3) : StepsTo S st1 st3 := by
  obtain ⟨d1, a1, a2, a3⟩ := h1
  obtain ⟨d2, b1, b2, b3⟩ := h2
  refine ⟨d2 ++ d1, by simp [b1, a1], ?_, ?_⟩
  · intro x hx
    rcases List.mem_append.mp hx with hx | hx
    · obtain ⟨hxs, hxd⟩ := b2 x hx
      refine ⟨hxs, fun hc => hxd ?_⟩
      rw [a1]
      exact List.mem_append_right _ hc
    · exact a2 x hx
  · intro hnil
    rw [List.append_eq_nil] at hnil
    exact (b3 hnil.1).trans (a3 hnil.2)

/-- Precise evolution of `(done, todo, order)` across a writer call:
each `add_todo` conses a fresh id onto `done` and appends it to the FIFO
`todo`, so a call enqueues a duplicate-free batch of ids it has not seen
done before, and never touches the ghost emission order. -/
def StepsToQ (S : List Nat) (st st' : SState) : Prop :=
  ∃ delta, st'.done = delta.reverse ++ st.done ∧ st'.todo = st.todo ++ delta ∧
    delta.Nodup ∧ (∀ x ∈ delta, x ∈ S ∧ x ∉ st.done) ∧ st'.order = st.order

theorem StepsToQ_of_same {S : List Nat} {st st' : SState}
    (hd : st'.done = st.done) (ht : st'.todo = st.todo)
    (ho : st'.order = st.order) : StepsToQ S st st' :=
  ⟨[], by simpa using hd, by simpa using ht, by simp, by simp, ho⟩

theorem StepsToQ_of_sameCtl {S : List Nat} {st st' : SState}
    (h : sameCtl st st') : StepsToQ S st st' :=
  StepsToQ_of_same h.2.1 h.1 h.2.2.2

theorem StepsToQ_mono {S S' : List Nat} {st st' : SState}
    (hss : ∀ x ∈ S, x ∈ S') (h : StepsToQ S st st') : StepsToQ S' st st' := by
  obtain ⟨delta, h1, h2, h3, h4, h5⟩ := h
  exact ⟨delta, h1, h2, h3, fun x hx => ⟨hss x (h4 x hx).1, (h4 x hx).2⟩, h5⟩

theorem StepsToQ_addTodo {S : List Nat} {i : Nat} (st : SState) (hi : i ∈ S) :
    StepsToQ S st (addTodo i st) := by
  unfold addTodo
  split
  · exact StepsToQ_of_same rfl rfl rfl
  · next hmem =>
      exact ⟨[i], rfl, rfl, by simp, by simpa using ⟨hi, hmem⟩, rfl⟩

theorem StepsToQ_trans {S : List Nat} {st1 st2 st3 : SState}
    (h1 : StepsToQ S st1 st2) (h2 : StepsToQ S st2 st3) : StepsToQ S st1 st3 := by
  obtain ⟨d1, a1, a2, a3, a4, a5⟩ := h1
  obtain ⟨d2, b1, b2, b3, b4, b5⟩ := h2
  refine ⟨d1 ++ d2, by simp [b1, a1], by simp [b2, a2], ?_, ?_, b5.trans a5⟩
  · rw [List.nodup_append]
    refine ⟨a3, b3, ?_⟩
    intro x hx hx2
    have hfresh := (b4 x hx2).2
    rw [a1] at hfresh
    exact hfresh (List.mem_append_left _ (List.mem_reverse.mpr hx))
  · intro x hx
    rcases List.mem_append.mp hx with hx | hx
    · exact a4 x hx
    · obtain ⟨hxs, hxd⟩ := b4 x hx
      refine ⟨hxs, fun hc => hxd ?_⟩
      rw [a1]
      exact List.mem_append_right _ hc

theorem writeMember_q {m : Member} {t : MemberType} {st st' : SState}
    (h : writeMember m t st = some st') :
    StepsToQ (memberRefs t m).toList st st' := by
  cases t <;> simp only [writeMember] at h
  case Primitive p =>
    cases m <;> simp only at h
    case Primitive v => exact StepsToQ_of_sameCtl (writePrimitive_sameCtl h)
    all_goals exact Option.noConfusion h
  all_goals (
    cases m <;> simp only at h
    case Primitive v =>
      exact StepsToQ_of_sameCtl
        (sameCtl_trans (sameCtl_trans (writeU8_sameCtl _ _)
          (writePrimitiveType_sameCtl _ _)) (writePrimitive_sameCtl h))
    case Reference i =>
      obtain ⟨rfl⟩ := by simpa using h.symm
      exact StepsToQ_trans
        (StepsToQ_of_sameCtl (sameCtl_trans (writeU8_sameCtl _ _) (writeI32_sameCtl _ _)))
        (StepsToQ_addTodo _ (by simp [memberRefs]))
    case Null =>
      obtain ⟨rfl⟩ := by simpa using h.symm
      exact StepsToQ_of_sameCtl (writeU8_sameCtl _ _)
    case NullMultiple count =>
      split at h
      · obtain ⟨rfl⟩ := by simpa using h.symm
        exact StepsToQ_of_sameCtl
          (sameCtl_trans (writeU8_sameCtl _ _) (writeU8_sameCtl _ _))
      · obtain ⟨rfl⟩ := by simpa using h.symm
        exact StepsToQ_of_sameCtl
          (sameCtl_trans (writeU8_sameCtl _ _) (writeI32_sameCtl _ _)))

theorem writeMembers_q {pairs : List (Member × MemberType)} {st st' : SState}
    (h : writeMembers pairs st = some st') :
    StepsToQ (pairs.filterMap (fun p => memberRefs p.2 p.1)) st st' := by
  induction pairs generalizing st with
  | nil =>
      obtain ⟨rfl⟩ := by simpa [writeMembers] using h.symm
      exact StepsToQ_of_same rfl rfl rfl
  | cons p rest ih =>
      obtain ⟨m, t⟩ := p
      unfold writeMembers at h
      split at h
      · exact Option.noConfusion h
      · next st1 hw =>
          refine StepsToQ_trans
            (StepsToQ_mono ?_ (writeMember_q hw))
            (StepsToQ_mono ?_ (ih h))
          · intro x hx
            simp only [Option.mem_toList, Option.mem_def] at hx
            simp [List.filterMap_cons, hx]
          · intro x hx
            simp only [List.filterMap_cons]
            cases hmr : memberRefs t m <;> simp [hx]

theorem writeRecord_q {g : DeserializedRecord} {id : Nat} {r : Record}
    {st st' : SState} (h : writeRecord g id r st = some st') :
    StepsToQ (recordRefs g r) st st' := by
  cases r <;> simp only [writeRecord] at h
  case BinaryLibrary name =>
    exact StepsToQ_of_sameCtl
      (sameCtl_trans (sameCtl_trans (writeU8_sameCtl _ _) (writeI32_sameCtl _ _))
        (writeString_sameCtl h))
  case Class c =>
    rcases hct : g.class_types[c.class_type_id]? with _ | ct
    · rw [hct] at h; exact Option.noConfusion h
    · rw [hct] at h
      simp only at h
      rcases hhp : (if ct.system_class then writeClassType id ct (writeU8 4 st)
        else
          match lookupA st.class_metadata c.class_type_id with
          | some classId => some (writeI32 classId (writeI32 id (writeU8 1 st)))
          | none =>
            match writeClassType id ct (writeU8 5 st) with
            | none => none
            | some st1 =>
              let st2 := writeI32 ct.library_id st1
              some { st2 with
                class_metadata := st2.class_metadata ++ [(c.class_type_id, id)] }) with
        _ | st2
      · rw [hhp] at h; exact Option.noConfusion h
      · rw [hhp] at h
        have hsame : st2.done = st.done ∧ st2.todo = st.todo ∧ st2.order = st.order := by
          split at hhp
          · have := sameCtl_trans (writeU8_sameCtl 4 st)
              (writeClassType_sameCtl hhp)
            exact ⟨this.2.1, this.1, this.2.2.2⟩
          · split at hhp
            · next classId hcm =>
                obtain ⟨rfl⟩ := by simpa using hhp.symm
                exact ⟨rfl, rfl, rfl⟩
            · split at hhp
              · exact absurd hhp (by simp)
              · next st1 hwct =>
                  obtain ⟨rfl⟩ := by simpa using hhp.symm
                  have := sameCtl_trans (sameCtl_trans (writeU8_sameCtl 5 st)
                    (writeClassType_sameCtl hwct)) (writeI32_sameCtl ct.library_id st1)
                  exact ⟨this.2.1, this.1, this.2.2.2⟩
        have hms := writeMembers_q h
        refine StepsToQ_trans (StepsToQ_of_same hsame.1 hsame.2.1 hsame.2.2)
          (StepsToQ_mono ?_ hms)
        intro x hx
        simpa [recordRefs, hct] using hx
  case BinaryArray t vals =>
    rcases hai : writeMemberTypeAdditionalInfo t
        (writeMemberType t (writeI32 vals.length
          (writeI32 1 (writeU8 0 (writeI32 id (writeU8 7 st)))))) with _ | st2
    · rw [hai] at h; exact Option.noConfusion h
    · rw [hai] at h
      have hsame := sameCtl_trans
        (sameCtl_trans (sameCtl_trans (sameCtl_trans
          (sameCtl_trans (writeU8_sameCtl 7 st) (writeI32_sameCtl id _))
          (writeU8_sameCtl 0 _)) (writeI32_sameCtl 1 _))
          (sameCtl_trans (writeI32_sameCtl vals.length _) (writeMemberType_sameCtl t _)))
        (writeMemberTypeAdditionalInfo_sameCtl hai)
      have hms := writeMembers_q h
      refine StepsToQ_trans (StepsToQ_of_sameCtl hsame) (StepsToQ_mono ?_ hms)
      intro x hx
      simp only [List.filterMap_map] at hx
      simpa [recordRefs, Function.comp] using hx
  case PrimitiveArray t vals =>
    exact StepsToQ_of_sameCtl
      (sameCtl_trans (sameCtl_trans (sameCtl_trans
        (sameCtl_trans (writeU8_sameCtl 15 st) (writeI32_sameCtl id _))
        (writeI32_sameCtl vals.length _)) (writePrimitiveType_sameCtl t _))
        (writePrimitivesS_sameCtl h))
  case String s =>
    exact StepsToQ_of_sameCtl
      (sameCtl_trans (sameCtl_trans (writeU8_sameCtl 6 st) (writeI32_sameCtl id _))
        (writeString_sameCtl h))

theorem StepsTo_of_Q {S : List Nat} {st st' : SState}
    (h : StepsToQ S st st') : StepsTo S st st' := by
  obtain ⟨delta, h1, h2, h3, h4, h5⟩ := h
  refine ⟨delta.reverse, h1, fun x hx => h4 x (List.mem_reverse.mp hx), fun hnil => ?_⟩
  have hd : delta = [] := by simpa using hnil
  rw [h2, hd]
  simp

theorem writeRecord_steps {g : DeserializedRecord} {id : Nat} {r : Record}
    {st st' : SState} (h : writeRecord g id r st = some st') :
    StepsTo (recordRefs g r) st st' :=
  StepsTo_of_Q (writeRecord_q h)

/-! ## The emission loop and `serialize` -/

/-- Number of ids of the graph not yet marked done: the primary
termination measure of the emission loop. -/
def undoneCard (g : DeserializedRecord) (st : SState) : Nat :=
  ((allIdsList g).toFinset.filter (fun i => i ∉ st.done)).card

theorem undoneCard_le {g : DeserializedRecord} {st st' : SState}
    (hsub : ∀ x ∈ st.done, x ∈ st'.done) :
    undoneCard g st' ≤ undoneCard g st := by
  apply Finset.card_le_card
  intro x hx
  simp only [Finset.mem_filter] at hx ⊢
  exact ⟨hx.1, fun hc => hx.2 (hsub x hc)⟩

theorem undoneCard_lt {g : DeserializedRecord} {st st' : SState}
    (hsub : ∀ x ∈ st.done, x ∈ st'.done) {x : Nat} (hxg : x ∈ allIdsList g)
    (hxold : x ∉ st.done) (hxnew : x ∈ st'.done) :
    undoneCard g st' < undoneCard g st := by
  apply Finset.card_lt_card
  constructor
  · intro y hy
    simp only [Finset.mem_filter] at hy ⊢
    exact ⟨hy.1, fun hc => hy.2 (hsub y hc)⟩
  · intro hcon
    have hx : x ∈ (allIdsList g).toFinset.filter (fun i => i ∉ st.done) := by
      simp only [Finset.mem_filter, List.mem_toFinset]
      exact ⟨hxg, hxold⟩
    have := hcon hx
    simp only [Finset.mem_filter] at this
    exact this.2 hxnew

/-- The FIFO emission loop of `serialize`: pop an id, look up its record
(`rec.records[&id]` panics on a missing id), write it, and record the id
in the ghost emission order. -/
def serializeLoop (g : DeserializedRecord) (st : SState) : Option SState :=
  match htodo : st.todo with
  | [] => some st
  | id :: rest =>
    match hlook : lookupA g.records id with
    | none => none
    | some r =>
      match hw : writeRecord g id r { st with todo := rest } with
      | none => none
      | some st' => serializeLoop g { st' with order := st'.order ++ [id] }
termination_by (undoneCard g st, st.todo.length)
decreasing_by
  simp_wf
  obtain ⟨delta, hdone, hmem, htodoeq⟩ := writeRecord_steps hw
  cases delta with
  | nil =>
      have hdone' : st'.done = st.done := by simpa using hdone
      have htodo' : st'.todo = rest := by simpa using htodoeq rfl
      have hcard : undoneCard g { st' with order := st'.order ++ [id] } = undoneCard g st := by
        unfold undoneCard
        have hd : ({ st' with order := st'.order ++ [id] } : SState).done = st.done := hdone'
        rw [hd]
      rw [hcard, htodo', htodo]
      exact Prod.Lex.right _ (by simp)
  | cons x d =>
      have hx := hmem x (by simp)
      have hlt : undoneCard g st' < undoneCard g st := by
        refine undoneCard_lt ?_ (recordRefs_subset_allIds hlook x hx.1) hx.2 ?_
        · intro y hy
          rw [hdone]
          simp only [List.mem_append, List.mem_cons]
          right
          exact hy
        · rw [hdone]
          simp
      have hcard : undoneCard g { st' with order := st'.order ++ [id] } = undoneCard g st' := rfl
      exact Prod.Lex.left _ _ (by rw [hcard]; exact hlt)

/-- The library-enqueueing pass of `serialize`: iterate the records map
(insertion order in the model) and enqueue every `BinaryLibrary`. -/
def enqueueLibs : List (Nat × Record) → SState → SState
  | [], st => st
  | (id, r) :: rest, st =>
    enqueueLibs rest
      (match r with
       | .BinaryLibrary _ => addTodo id st
       | _ => st)

/-- The header bytes written by `serialize`: a zero byte, then `root_id`,
`header_id`, major version 1 and minor version 0. -/
def headerState (g : DeserializedRecord) : SState :=
  writeI32 0 (writeI32 1 (writeI32 g.header_id (writeI32 g.root_id
    (writeU8 0 ⟨[], [], [], [], []⟩))))

/-- The library pass is a chain of `add_todo`s over the record keys. -/
theorem enqueueLibs_q (recs : List (Nat × Record)) (st : SState) :
    StepsToQ (recs.map Prod.fst) st (enqueueLibs recs st) := by
  induction recs generalizing st with
  | nil => exact StepsToQ_of_same rfl rfl rfl
  | cons p rest ih =>
      obtain ⟨id, r⟩ := p
      have hmid : StepsToQ (((id, r) :: rest).map Prod.fst) st
          (match r with | .BinaryLibrary _ => addTodo id st | _ => st) := by
        cases r
        case BinaryLibrary name => exact StepsToQ_addTodo st (by simp)
        all_goals exact StepsToQ_of_same rfl rfl rfl
      simp only [enqueueLibs, List.map_cons]
      exact StepsToQ_trans hmid
        (StepsToQ_mono (fun x hx => List.mem_cons_of_mem _ hx) (ih _))

/-! ## Step equations for the recursive parser

The well-founded definitions do not reduce definitionally; these
propositional equations let concrete streams and round-trips be
evaluated one parsing step at a time. -/

theorem parseLoop_stop {st : PState} (h : peekByte st = .ok 11) :
    parseLoop st = .ok st := by
  rw [parseLoop.eq_def, h]
  simp

theorem parseLoop_peek_error {st : PState} {e : PError}
    (h : peekByte st = .error e) : parseLoop st = .error e := by
  rw [parseLoop.eq_def, h]

theorem parseLoop_rec_error {st : PState} {b : Nat} {e : PError}
    (hb : peekByte st = .ok b) (h11 : b ≠ 11)
    (hrec : parseRecordTop st = .error e) : parseLoop st = .error e := by
  rw [parseLoop.eq_def, hb]
  simp [h11, hrec]

theorem parseLoop_add_error {st : PState} {b id : Nat} {r : Record} {st1 : PState}
    {e : PError} (hb : peekByte st = .ok b) (h11 : b ≠ 11)
    (hrec : parseRecordTop st = .ok ((id, r), st1))
    (hadd : addRecord id r st1 = .error e) : parseLoop st = .error e := by
  rw [parseLoop.eq_def, hb]
  simp [h11, hrec, hadd]

theorem parseLoop_cont {st : PState} {b id : Nat} {r : Record} {st1 st2 : PState}
    (hb : peekByte st = .ok b) (h11 : b ≠ 11)
    (hrec : parseRecordTop st = .ok ((id, r), st1))
    (hadd : addRecord id r st1 = .ok st2)
    (hlen : st2.bytes.length < st.bytes.length) :
    parseLoop st = parseLoop st2 := by
  rw [parseLoop.eq_def, hb]
  simp [h11, hrec, hadd, hlen]

theorem parseMembers_nil (st : PState) : parseMembers [] st = .ok ([], st) := by
  rw [parseMembers.eq_def]

theorem parseMembers_cons {t : MemberType} {ts : List MemberType} {st : PState}
    {m : Member} {st' : PState}
    (hm : parseMember t st = .ok (m, st'))
    (hle : st'.bytes.length ≤ st.bytes.length) :
    parseMembers (t :: ts) st =
      match parseMembers ts st' with
      | .error e => .error e
      | .ok (ms, st'') => .ok (expandMember m ++ ms, st'') := by
  rw [parseMembers.eq_def]
  split
  · next heq => exact List.noConfusion heq
  · next t1 ts1 heq =>
      obtain ⟨rfl, rfl⟩ := by simpa using heq
      split
      · next heqm => rw [hm] at heqm; exact Except.noConfusion heqm
      · next heqm =>
          rw [hm] at heqm
          obtain ⟨rfl, rfl⟩ := by simpa using heqm
          rw [dif_pos hle]

theorem parseMembers_cons_error {t : MemberType} {ts : List MemberType}
    {st : PState} {e : PError} (hm : parseMember t st = .error e) :
    parseMembers (t :: ts) st = .error e := by
  rw [parseMembers.eq_def]
  split
  · next heq => exact List.noConfusion heq
  · next t1 ts1 heq =>
      obtain ⟨rfl, rfl⟩ := by simpa using heq
      split
      · next heqm =>
          rw [hm] at heqm
          obtain rfl := by simpa using heqm
          rfl
      · next heqm => rw [hm] at heqm; exact Except.noConfusion heqm

theorem parseMember_prim {p : PrimitiveType} {st : PState} {v : Primitive}
    {st' : PState} (h : parsePrimitive p st = .ok (v, st')) :
    parseMember (.Primitive p) st = .ok (.Primitive v, st') := by
  rw [parseMember.eq_def]
  simp [h]

theorem parseMember_object {st : PState} {tag : Nat} {st1 : PState}
    (hu : parseU8 st = .ok (tag, st1)) :
    parseMember .Object st = parseMemberTagged tag st1 := by
  rw [parseMember.eq_def]
  split
  · next p heq => exact MemberType.noConfusion heq
  · split
    · next heq => rw [hu] at heq; exact Except.noConfusion heq
    · next heq =>
        rw [hu] at heq
        obtain ⟨rfl, rfl⟩ := by simpa using heq
        rfl

theorem parseMemberTagged_9 {st : PState} {id : Nat} {st2 : PState}
    (h : parseI32 st = .ok (id, st2)) :
    parseMemberTagged 9 st = .ok (.Reference id, st2) := by
  rw [parseMemberTagged.eq_def]
  simp [h]

theorem parseMemberTagged_10 (st : PState) :
    parseMemberTagged 10 st = .ok (.Null, st) := by
  rw [parseMemberTagged.eq_def]

theorem parseMemberTagged_13 {st : PState} {count : Nat} {st2 : PState}
    (h : parseU8 st = .ok (count, st2)) :
    parseMemberTagged 13 st = .ok (.NullMultiple count, st2) := by
  rw [parseMemberTagged.eq_def]
  simp [h]

theorem parseMemberTagged_14 {st : PState} {count : Nat} {st2 : PState}
    (h : parseI32 st = .ok (count, st2)) :
    parseMemberTagged 14 st = .ok (.NullMultiple count, st2) := by
  rw [parseMemberTagged.eq_def]
  simp [h]

theorem parseClassWithId_eval {st : PState} {id : Nat} {st1 : PState} {mid : Nat}
    {st2 : PState} {ctid : Nat} {ct : ClassType} {members : List Member}
    {st3 : PState}
    (h1 : parseI32 st = .ok (id, st1)) (h2 : parseI32 st1 = .ok (mid, st2))
    (hmd : lookupA st2.class_metadata mid = some ctid)
    (hct : st2.class_types[ctid]? = some ct)
    (hm : parseMembers ct.member_types st2 = .ok (members, st3)) :
    parseClassWithId st = .ok ((id, .Class ⟨ctid, members⟩), st3) := by
  rw [parseClassWithId.eq_def]
  split
  · next heq => rw [h1] at heq; exact Except.noConfusion heq
  · next heq =>
      rw [h1] at heq
      obtain ⟨rfl, rfl⟩ := by simpa using heq
      split
      · next heq2 => rw [h2] at heq2; exact Except.noConfusion heq2
      · next heq2 =>
          rw [h2] at heq2
          obtain ⟨rfl, rfl⟩ := by simpa using heq2
          simp only [hmd, hct, hm]

theorem parseClassWithId_missing {st : PState} {id : Nat} {st1 : PState}
    {mid : Nat} {st2 : PState}
    (h1 : parseI32 st = .ok (id, st1)) (h2 : parseI32 st1 = .ok (mid, st2))
    (hmd : lookupA st2.class_metadata mid = none) :
    parseClassWithId st = .error (.missingClassMetadata mid) := by
  rw [parseClassWithId.eq_def]
  split
  · next heq => rw [h1] at heq; exact Except.noConfusion heq
  · next heq =>
      rw [h1] at heq
      obtain ⟨rfl, rfl⟩ := by simpa using heq
      split
      · next heq2 => rw [h2] at heq2; exact Except.noConfusion heq2
      · next heq2 =>
          rw [h2] at heq2
          obtain ⟨rfl, rfl⟩ := by simpa using heq2
          rw [hmd]

theorem parseClassWMT_eval {st : PState} {id : Nat} {name : List Nat}
    {names : List (List Nat)} {st1 : PState} {types : List MemberType}
    {st2 : PState} {lib : Nat} {st3 : PState} {members : List Member}
    {st4 : PState}
    (h1 : parseClassInfo st = .ok ((id, name, names), st1))
    (h2 : parseMemberTypes names.length st1 = .ok (types, st2))
    (h3 : parseI32 st2 = .ok (lib, st3))
    (h4 : parseMembers types st3 = .ok (members, st4)) :
    parseClassWMT st = .ok ((id, .Class ⟨st4.class_types.length, members⟩),
      { st4 with
        class_metadata := st4.class_metadata ++ [(id, st4.class_types.length)],
        class_types := st4.class_types ++ [⟨name, lib, false, names, types⟩] }) := by
  rw [parseClassWMT.eq_def]
  split
  · next heq => rw [h1] at heq; exact Except.noConfusion heq
  · next heq =>
      rw [h1] at heq
      obtain ⟨⟨rfl, rfl, rfl⟩, rfl⟩ := by simpa using heq
      split
      · next heq2 => rw [h2] at heq2; exact Except.noConfusion heq2
      · next heq2 =>
          rw [h2] at heq2
          obtain ⟨rfl, rfl⟩ := by simpa using heq2
          split
          · next heq3 => rw [h3] at heq3; exact Except.noConfusion heq3
          · next heq3 =>
              rw [h3] at heq3
              obtain ⟨rfl, rfl⟩ := by simpa using heq3
              rw [h4]

theorem parseSystemClassWMT_eval {st : PState} {id : Nat} {name : List Nat}
    {names : List (List Nat)} {st1 : PState} {types : List MemberType}
    {st2 : PState} {members : List Member} {st3 : PState}
    (h1 : parseClassInfo st = .ok ((id, name, names), st1))
    (h2 : parseMemberTypes names.length st1 = .ok (types, st2))
    (h3 : parseMembers types st2 = .ok (members, st3)) :
    parseSystemClassWMT st = .ok ((id, .Class ⟨st3.class_types.length, members⟩),
      { st3 with
        class_metadata := st3.class_metadata ++ [(id, st3.class_types.length)],
        class_types := st3.class_types ++ [⟨name, 0, true, names, types⟩] }) := by
  rw [parseSystemClassWMT.eq_def]
  split
  · next heq => rw [h1] at heq; exact Except.noConfusion heq
  · next heq =>
      rw [h1] at heq
      obtain ⟨⟨rfl, rfl, rfl⟩, rfl⟩ := by simpa using heq
      split
      · next heq2 => rw [h2] at heq2; exact Except.noConfusion heq2
      · next heq2 =>
          rw [h2] at heq2
          obtain ⟨rfl, rfl⟩ := by simpa using heq2
          rw [h3]

theorem parseBinaryArray_badType {st : PState} {id : Nat} {st1 : PState}
    {arrayType : Nat} {st2 : PState}
    (h1 : parseI32 st = .ok (id, st1)) (h2 : parseU8 st1 = .ok (arrayType, st2))
    (hat : arrayType ≠ 0) :
    parseBinaryArray st = .error (.todoArrayType arrayType) := by
  rw [parseBinaryArray.eq_def]
  split
  · next heq => rw [h1] at heq; exact Except.noConfusion heq
  · next heq =>
      rw [h1] at heq
      obtain ⟨rfl, rfl⟩ := by simpa using heq
      split
      · next heq2 => rw [h2] at heq2; exact Except.noConfusion heq2
      · next heq2 =>
          rw [h2] at heq2
          obtain ⟨rfl, rfl⟩ := by simpa using heq2
          rw [if_pos hat]

theorem parseBinaryArray_badRank {st : PState} {id : Nat} {st1 : PState}
    {st2 : PState} {rank : Nat} {st3 : PState}
    (h1 : parseI32 st = .ok (id, st1)) (h2 : parseU8 st1 = .ok (0, st2))
    (h3 : parseI32 st2 = .ok (rank, st3)) (hr : rank ≠ 1) :
    parseBinaryArray st = .error (.todoArrayRank rank) := by
  rw [parseBinaryArray.eq_def]
  split
  · next heq => rw [h1] at heq; exact Except.noConfusion heq
  · next heq =>
      rw [h1] at heq
      obtain ⟨rfl, rfl⟩ := by simpa using heq
      split
      · next heq2 => rw [h2] at heq2; exact Except.noConfusion heq2
      · next heq2 =>
          rw [h2] at heq2
          obtain ⟨rfl, rfl⟩ := by simpa using heq2
          rw [if_neg (by omega : ¬ (0 : Nat) ≠ 0)]
          split
          · next heq3 => rw [h3] at heq3; exact Except.noConfusion heq3
          · next heq3 =>
              rw [h3] at heq3
              obtain ⟨rfl, rfl⟩ := by simpa using heq3
              rw [if_pos hr]

theorem parseBinaryArray_eval {st : PState} {id : Nat} {st1 st2 : PState}
    {len : Nat} {st3 st4 : PState} {mtb : Nat}
    {st5 : PState} {mt : MemberType} {st6 : PState} {vals : List Member}
    {st7 : PState}
    (h1 : parseI32 st = .ok (id, st1)) (h2 : parseU8 st1 = .ok (0, st2))
    (h3 : parseI32 st2 = .ok (1, st3)) (h4 : parseI32 st3 = .ok (len, st4))
    (h5 : parseU8 st4 = .ok (mtb, st5)) (h6 : parseMemberType mtb st5 = .ok (mt, st6))
    (h7 : parseArrayVals mt (usizeOfI32 len) [] st6 = .ok (vals, st7)) :
    parseBinaryArray st = .ok ((id, .BinaryArray mt vals), st7) := by
  rw [parseBinaryArray.eq_def]
  split
  · next heq => rw [h1] at heq; exact Except.noConfusion heq
  · next heq =>
      rw [h1] at heq
      obtain ⟨rfl, rfl⟩ := by simpa using heq
      split
      · next heq2 => rw [h2] at heq2; exact Except.noConfusion heq2
      · next heq2 =>
          rw [h2] at heq2
          obtain ⟨rfl, rfl⟩ := by simpa using heq2
          rw [if_neg (by omega : ¬ (0 : Nat) ≠ 0)]
          split
          · next heq3 => rw [h3] at heq3; exact Except.noConfusion heq3
          · next heq3 =>
              rw [h3] at heq3
              obtain ⟨rfl, rfl⟩ := by simpa using heq3
              rw [if_neg (by omega : ¬ (1 : Nat) ≠ 1)]
              split
              · next heq4 => rw [h4] at heq4; exact Except.noConfusion heq4
              · next heq4 =>
                  rw [h4] at heq4
                  obtain ⟨rfl, rfl⟩ := by simpa using heq4
                  split
                  · next heq5 => rw [h5] at heq5; exact Except.noConfusion heq5
                  · next heq5 =>
                      rw [h5] at heq5
                      obtain ⟨rfl, rfl⟩ := by simpa using heq5
                      split
                      · next heq6 => rw [h6] at heq6; exact Except.noConfusion heq6
                      · next heq6 =>
                          rw [h6] at heq6
                          obtain ⟨rfl, rfl⟩ := by simpa using heq6
                          rw [h7]

theorem parseArrayVals_stop {t : MemberType} {target : Nat} {vals : List Member}
    {st : PState} (h : ¬ vals.length < target) :
    parseArrayVals t target vals st = .ok (vals, st) := by
  rw [parseArrayVals.eq_def]
  rw [dif_neg h]

theorem parseArrayVals_step {t : MemberType} {target : Nat} {vals : List Member}
    {st : PState} {m : Member} {st' : PState}
    (hlt : vals.length < target) (hm : parseMember t st = .ok (m, st'))
    (hpr : st'.bytes.length < st.bytes.length ∨
      (st'.bytes.length = st.bytes.length ∧
        target - (vals ++ expandMember m).length < target - vals.length)) :
    parseArrayVals t target vals st =
      parseArrayVals t target (vals ++ expandMember m) st' := by
  rw [parseArrayVals.eq_def]
  rw [dif_pos hlt]
  split
  · next heq => rw [hm] at heq; exact Except.noConfusion heq
  · next heq =>
      rw [hm] at heq
      obtain ⟨rfl, rfl⟩ := by simpa using heq
      rw [dif_pos hpr]

theorem serializeLoop_nil {g : DeserializedRecord} {st : SState}
    (h : st.todo = []) : serializeLoop g st = some st := by
  rw [serializeLoop.eq_def]
  split
  · rfl
  · next id rest heq => rw [h] at heq; exact List.noConfusion heq

theorem serializeLoop_missing {g : DeserializedRecord} {st : SState} {id : Nat}
    {rest : List Nat} (h : st.todo = id :: rest)
    (hlook : lookupA g.records id = none) : serializeLoop g st = none := by
  rw [serializeLoop.eq_def]
  split
  · next heq => rw [h] at heq; exact List.noConfusion heq
  · next id1 rest1 heq =>
      rw [h] at heq
      obtain ⟨rfl, rfl⟩ := by simpa using heq
      rw [hlook]

theorem serializeLoop_cons {g : DeserializedRecord} {st : SState} {id : Nat}
    {rest : List Nat} {r : Record} {st' : SState}
    (h : st.todo = id :: rest) (hlook : lookupA g.records id = some r)
    (hw : writeRecord g id r { st with todo := rest } = some st') :
    serializeLoop g st = serializeLoop g { st' with order := st'.order ++ [id] } := by
  rw [serializeLoop.eq_def]
  split
  · next heq => rw [h] at heq; exact List.noConfusion heq
  · next id1 rest1 heq =>
      rw [h] at heq
      obtain ⟨rfl, rfl⟩ := by simpa using heq
      split
      · next heq2 => rw [hlook] at heq2; exact Option.noConfusion heq2
      · next heq2 =>
          rw [hlook] at heq2
          obtain rfl := by simpa using heq2
          split
          · next heq3 => rw [hw] at heq3; exact Option.noConfusion heq3
          · next heq3 =>
              rw [hw] at heq3
              obtain rfl := by simpa using heq3
              rfl

theorem serializeLoop_write_none {g : DeserializedRecord} {st : SState} {id : Nat}
    {rest : List Nat} {r : Record}
    (h : st.todo = id :: rest) (hlook : lookupA g.records id = some r)
    (hw : writeRecord g id r { st with todo := rest } = none) :
    serializeLoop g st = none := by
  rw [serializeLoop.eq_def]
  split
  · next heq => rw [h] at heq; exact List.noConfusion heq
  · next id1 rest1 heq =>
      rw [h] at heq
      obtain ⟨rfl, rfl⟩ := by simpa using heq
      split
      · next heq2 => rw [hlook] at heq2
      · next heq2 =>
          rw [hlook] at heq2
          obtain rfl := by simpa using heq2
          split
          · rfl
          · next heq3 => rw [hw] at heq3; exact Option.noConfusion heq3

/-! ## Varint length correctness (spec: varint round-trip) -/

theorem parseLengthAux_writeLength {k L i acc : Nat} (hL : L < 2 ^ (7 * k))
    (hk : 1 ≤ k) (rest : List Nat) (recs : List (Nat × Record))
    (cts : List ClassType) (md : List (Nat × Nat)) :
    parseLengthAux k i acc ⟨writeLength L ++ rest, recs, cts, md⟩ =
      .ok ((acc + L * 2 ^ (7 * i)) % 2 ^ 32, ⟨rest, recs, cts, md⟩) := by
  induction k generalizing L i acc with
  | zero => omega
  | succ k ih =>
      rw [writeLength]
      split
      · next hlt =>
          simp only [List.cons_append, parseLengthAux, parseU8]
          rw [if_pos hlt, Nat.mod_eq_of_lt hlt]
          simp
      · next hge =>
          have hk1 : 1 ≤ k := by
            rcases Nat.eq_zero_or_pos k with rfl | hp
            · exfalso
              have : L < 128 := by simpa using hL
              omega
            · omega
          have hdiv : L / 128 < 2 ^ (7 * k) := by
            have h1 : (2 : Nat) ^ (7 * (k + 1)) = 2 ^ (7 * k) * 128 := by
              have : 7 * (k + 1) = 7 * k + 7 := by ring
              rw [this, pow_add]
              norm_num
            rw [Nat.div_lt_iff_lt_mul (by omega)]
            omega
          simp only [List.cons_append, parseLengthAux, parseU8]
          rw [if_neg (by omega : ¬ L % 128 + 128 < 128)]
          rw [ih hdiv hk1]
          congr 2
          rw [Nat.add_mod_right, Nat.mod_mod_of_dvd _ (dvd_refl 128), Nat.mod_add_mod]
          congr 1
          have h2 : (2 : Nat) ^ (7 * (i + 1)) = 2 ^ (7 * i) * 128 := by
            have : 7 * (i + 1) = 7 * i + 7 := by ring
            rw [this, pow_add]
            norm_num
          rw [h2]
          have hsplit : L % 128 + 128 * (L / 128) = L := Nat.mod_add_div L 128
          calc acc + L % 128 * 2 ^ (7 * i) + L / 128 * (2 ^ (7 * i) * 128)
              = acc + (L % 128 + 128 * (L / 128)) * 2 ^ (7 * i) := by ring
            _ = acc + L * 2 ^ (7 * i) := by rw [hsplit]

theorem writeLength_length (L : Nat) : (writeLength L).length = Nat.log2 L / 7 + 1 := by
  induction L using Nat.strong_induction_on with
  | _ L ih =>
      rw [writeLength]
      split
      · next hlt =>
          simp only [List.length_cons, List.length_nil]
          have hlog : Nat.log2 L < 7 := by
            rcases Nat.eq_zero_or_pos L with rfl | hp
            · simp [Nat.log2]
            · exact (Nat.log2_lt (by omega)).mpr (by omega)
          omega
      · next hge =>
          have hL : 128 ≤ L := by omega
          have hrec := ih (L / 128) (Nat.div_lt_self (by omega) (by omega))
          simp only [List.length_cons]
          rw [hrec]
          have h7 : 7 ≤ Nat.log2 L := (Nat.le_log2 (by omega)).mpr (by norm_num; omega)
          have hlog : Nat.log2 (L / 128) = Nat.log2 L - 7 := by
            have hd : L / 128 = L / 2 / 2 / 2 / 2 / 2 / 2 / 2 := by
              simp [Nat.div_div_eq_div_mul]
            rw [hd, Nat.log2_eq_log_two, Nat.log_div_base, Nat.log_div_base,
              Nat.log_div_base, Nat.log_div_base, Nat.log_div_base, Nat.log_div_base,
              Nat.log_div_base, ← Nat.log2_eq_log_two]
            omega
          omega

/-! ## Reader evaluation helpers -/

theorem parseU8_cons {b : Nat} {rest : List Nat} {recs : List (Nat × Record)}
    {cts : List ClassType} {md : List (Nat × Nat)} :
    parseU8 ⟨b :: rest, recs, cts, md⟩ = .ok (b, ⟨rest, recs, cts, md⟩) := rfl

theorem takeBytes_exact {n : Nat} {bs rest : List Nat} {recs : List (Nat × Record)}
    {cts : List ClassType} {md : List (Nat × Nat)} (h : bs.length = n) :
    takeBytes n ⟨bs ++ rest, recs, cts, md⟩ = .ok (bs, ⟨rest, recs, cts, md⟩) := by
  subst h
  unfold takeBytes
  rw [if_neg (by simp only [List.length_append]; omega)]
  simp

theorem parseI32_leBytes {v : Nat} (hv : v < 2 ^ 32) {rest : List Nat}
    {recs : List (Nat × Record)} {cts : List ClassType} {md : List (Nat × Nat)} :
    parseI32 ⟨leBytes 4 v ++ rest, recs, cts, md⟩ = .ok (v, ⟨rest, recs, cts, md⟩) := by
  unfold parseI32
  rw [takeBytes_exact (leBytes_length 4 v)]
  simp only [leNat_leBytes_of_lt (w := 4) (v := v) (hv.trans_le (by norm_num))]

theorem parseLoop_ok_ne {st : PState} {st' : PState}
    (h : parseLoop st = .ok st') : st.bytes ≠ [] := by
  intro hnil
  have hpeek : peekByte st = .error .eof := by
    unfold peekByte
    rw [hnil]
  rw [parseLoop_peek_error hpeek] at h
  exact Except.noConfusion h

/-! ## Claim C9: varint round-trip -/

/-- C9: for every length `L` in `[0, 0x7FFFFFFF]`, `parse_length` decodes
the varint bytes the length loop of `write_string` produces for `L` back
to `L` (leaving the rest of the stream untouched), and that encoding
uses `⌈bits_needed(L) / 7⌉` bytes (with `bits_needed L = Nat.log2 L + 1`):
one byte for `L < 128` and five bytes for `L ≥ 2^28`. -/
theorem c9_varint_roundtrip (L : Nat) (hL : L ≤ 0x7FFFFFFF) :
    (∀ rest recs cts md, parseLength ⟨writeLength L ++ rest, recs, cts, md⟩ =
      .ok (L, ⟨rest, recs, cts, md⟩)) ∧
    (writeLength L).length = (Nat.log2 L + 1 + 6) / 7 ∧
    (L < 128 → (writeLength L).length = 1) ∧
    (2 ^ 28 ≤ L → (writeLength L).length = 5) := by
  refine ⟨?_, ?_, ?_, ?_⟩
  · intro rest recs cts md
    unfold parseLength
    rw [parseLengthAux_writeLength (by norm_num; omega) (by omega)]
    congr 1
    simp only [Nat.mul_zero, pow_zero, Nat.mul_one, Nat.zero_add]
    rw [Nat.mod_eq_of_lt (show L < 2 ^ 32 from lt_of_le_of_lt hL (by norm_num))]
  · rw [writeLength_length]
    omega
  · intro h
    rw [writeLength_length]
    have : Nat.log2 L < 7 := by
      rcases Nat.eq_zero_or_pos L with rfl | hp
      · simp [Nat.log2]
      · exact (Nat.log2_lt (by omega)).mpr (by omega)
    omega
  · intro h
    rw [writeLength_length]
    have h1 : 28 ≤ Nat.log2 L := (Nat.le_log2 (by omega)).mpr (by norm_num; omega)
    have h2 : Nat.log2 L < 31 := (Nat.log2_lt (by omega)).mpr (by norm_num; omega)
    omega

/-- Witness for C9 at `L = 300`. -/
theorem c9_varint_roundtrip_witness :
    300 ≤ 0x7FFFFFFF ∧
    ((∀ rest recs cts md, parseLength ⟨writeLength 300 ++ rest, recs, cts, md⟩ =
        .ok (300, ⟨rest, recs, cts, md⟩)) ∧
      (writeLength 300).length = (Nat.log2 300 + 1 + 6) / 7 ∧
      (300 < 128 → (writeLength 300).length = 1) ∧
      (2 ^ 28 ≤ 300 → (writeLength 300).length = 5)) :=
  ⟨by norm_num, c9_varint_roundtrip 300 (by norm_num)⟩

/-! ## Header evaluation of parse -/

theorem parse_eval_badmajor {root hdr maj mino : Nat} (hroot : root < 2 ^ 32)
    (hhdr : hdr < 2 ^ 32) (hmaj : maj < 2 ^ 32) (hmino : mino < 2 ^ 32)
    (hne : maj ≠ 1) (rest : List Nat) :
    parse (0 :: (leBytes 4 root ++ (leBytes 4 hdr ++ (leBytes 4 maj ++
        (leBytes 4 mino ++ rest))))) = .error (.assertMajorVersion maj) := by
  simp only [parse, parseU8_cons, parseI32_leBytes hroot, parseI32_leBytes hhdr,
    parseI32_leBytes hmaj, parseI32_leBytes hmino]
  simp [hne]

theorem parse_eval_badminor {root hdr mino : Nat} (hroot : root < 2 ^ 32)
    (hhdr : hdr < 2 ^ 32) (hmino : mino < 2 ^ 32) (hne : mino ≠ 0)
    (rest : List Nat) :
    parse (0 :: (leBytes 4 root ++ (leBytes 4 hdr ++ (leBytes 4 1 ++
        (leBytes 4 mino ++ rest))))) = .error (.assertMinorVersion mino) := by
  simp only [parse, parseU8_cons, parseI32_leBytes hroot, parseI32_leBytes hhdr,
    parseI32_leBytes (show (1 : Nat) < 2 ^ 32 by norm_num), parseI32_leBytes hmino]
  simp [hne]

theorem parse_eval {root hdr : Nat} (hroot : root < 2 ^ 32) (hhdr : hdr < 2 ^ 32)
    (tail : List Nat) :
    parse (0 :: (leBytes 4 root ++ (leBytes 4 hdr ++ (leBytes 4 1 ++
        (leBytes 4 0 ++ tail))))) =
      match parseLoop ⟨tail, [], [], []⟩ with
      | .error e => .error e
      | .ok st6 => .ok ⟨root, hdr, st6.records, st6.class_types⟩ := by
  simp only [parse, parseU8_cons, parseI32_leBytes hroot, parseI32_leBytes hhdr,
    parseI32_leBytes (show (1 : Nat) < 2 ^ 32 by norm_num),
    parseI32_leBytes (show (0 : Nat) < 2 ^ 32 by norm_num)]
  simp

/-- Convenient instance: the minimal stream (header and terminator only)
parses to the empty graph. -/
theorem parse_minimal_ok :
    parse [0, 1, 0, 0, 0, 2, 0, 0, 0, 1, 0, 0, 0, 0, 0, 0, 0, 11] =
      .ok ⟨1, 2, [], []⟩ := by
  rw [show ([0, 1, 0, 0, 0, 2, 0, 0, 0, 1, 0, 0, 0, 0, 0, 0, 0, 11] : List Nat) =
    0 :: (leBytes 4 1 ++ (leBytes 4 2 ++ (leBytes 4 1 ++ (leBytes 4 0 ++ [11]))))
    from rfl]
  rw [parse_eval (by norm_num) (by norm_num)]
  rw [@parseLoop_stop ⟨[11], [], [], []⟩ rfl]

/-! ## Claim C5: header handling -/

/-- C5 counterexample: on a header whose version pair is `(2, 0)` the
decoder does not return a typed Bad-header failure: it aborts through
the `assert!` on `major_version` (modelled by the panic-marked
`assertMajorVersion` error), contradicting the claim that a malformed
version yields a typed Bad-header failure. -/
theorem c5_counterexample :
    parse [0, 1, 0, 0, 0, 2, 0, 0, 0, 2, 0, 0, 0, 0, 0, 0, 0, 11] =
      .error (.assertMajorVersion 2) ∧
    (PError.assertMajorVersion 2).isPanic = true := ⟨by rfl, by rfl⟩

/-- C5 (amended): a first byte other than 0 yields the typed Bad-header
failure; a version pair other than `(1, 0)` aborts via `assert!` (a
panic, not a typed failure); a zero byte with version `(1, 0)` proceeds
to the record stream (an immediate terminator yields the empty graph). -/
theorem c5_header_behavior :
    (∀ b rest, b ≠ 0 → parse (b :: rest) = .error (.headerByte b) ∧
      (PError.headerByte b).isPanic = false) ∧
    (∀ root hdr maj mino rest, root < 2 ^ 32 → hdr < 2 ^ 32 → maj < 2 ^ 32 →
      mino < 2 ^ 32 → maj ≠ 1 →
      parse (0 :: (leBytes 4 root ++ (leBytes 4 hdr ++ (leBytes 4 maj ++
          (leBytes 4 mino ++ rest))))) = .error (.assertMajorVersion maj) ∧
      (PError.assertMajorVersion maj).isPanic = true) ∧
    (∀ root hdr mino rest, root < 2 ^ 32 → hdr < 2 ^ 32 → mino < 2 ^ 32 → mino ≠ 0 →
      parse (0 :: (leBytes 4 root ++ (leBytes 4 hdr ++ (leBytes 4 1 ++
          (leBytes 4 mino ++ rest))))) = .error (.assertMinorVersion mino) ∧
      (PError.assertMinorVersion mino).isPanic = true) ∧
    (∀ root hdr, root < 2 ^ 32 → hdr < 2 ^ 32 →
      parse (0 :: (leBytes 4 root ++ (leBytes 4 hdr ++ (leBytes 4 1 ++
          (leBytes 4 0 ++ [11]))))) = .ok ⟨root, hdr, [], []⟩) := by
  refine ⟨?_, ?_, ?_, ?_⟩
  · intro b rest hb
    exact ⟨by simp [parse, parseU8, hb], rfl⟩
  · intro root hdr maj mino rest hroot hhdr hmaj hmino hne
    exact ⟨parse_eval_badmajor hroot hhdr hmaj hmino hne rest, rfl⟩
  · intro root hdr mino rest hroot hhdr hmino hne
    exact ⟨parse_eval_badminor hroot hhdr hmino hne rest, rfl⟩
  · intro root hdr hroot hhdr
    rw [parse_eval hroot hhdr]
    rw [@parseLoop_stop ⟨[11], [], [], []⟩ rfl]

/-- Witness for C5 (amended) at concrete headers. -/
theorem c5_header_behavior_witness :
    (parse [5] = .error (.headerByte 5) ∧ (PError.headerByte 5).isPanic = false) ∧
    (parse (0 :: (leBytes 4 1 ++ (leBytes 4 2 ++ (leBytes 4 3 ++ (leBytes 4 0 ++ []))))) =
        .error (.assertMajorVersion 3) ∧
      (PError.assertMajorVersion 3).isPanic = true) ∧
    (parse (0 :: (leBytes 4 1 ++ (leBytes 4 2 ++ (leBytes 4 1 ++ (leBytes 4 7 ++ []))))) =
        .error (.assertMinorVersion 7) ∧
      (PError.assertMinorVersion 7).isPanic = true) ∧
    parse (0 :: (leBytes 4 1 ++ (leBytes 4 2 ++ (leBytes 4 1 ++ (leBytes 4 0 ++ [11]))))) =
      .ok ⟨1, 2, [], []⟩ :=
  ⟨c5_header_behavior.1 5 [] (by norm_num),
   c5_header_behavior.2.1 1 2 3 0 [] (by norm_num) (by norm_num) (by norm_num) (by norm_num) (by norm_num),
   c5_header_behavior.2.2.1 1 2 7 [] (by norm_num) (by norm_num) (by norm_num) (by norm_num),
   c5_header_behavior.2.2.2 1 2 (by norm_num) (by norm_num)⟩

/-! ## Claim C6: unsupported features -/

/-- C6 counterexample: a BinaryArray record with `array_type_byte = 1`
does not surface a typed Unsupported-feature failure: the decoder hits
`todo!()`, i.e. a panic (the panic-marked `todoArrayType` error). -/
theorem c6_counterexample :
    parse [0, 1, 0, 0, 0, 2, 0, 0, 0, 1, 0, 0, 0, 0, 0, 0, 0,
        7, 1, 0, 0, 0, 1, 11] = .error (.todoArrayType 1) ∧
    (PError.todoArrayType 1).isPanic = true := by
  refine ⟨?_, rfl⟩
  rw [show ([0, 1, 0, 0, 0, 2, 0, 0, 0, 1, 0, 0, 0, 0, 0, 0, 0,
      7, 1, 0, 0, 0, 1, 11] : List Nat) =
    0 :: (leBytes 4 1 ++ (leBytes 4 2 ++ (leBytes 4 1 ++ (leBytes 4 0 ++
      [7, 1, 0, 0, 0, 1, 11])))) from rfl]
  rw [parse_eval (by norm_num) (by norm_num)]
  have hrec : parseRecordTop ⟨[7, 1, 0, 0, 0, 1, 11], [], [], []⟩ =
      .error (.todoArrayType 1) := by
    simp only [parseRecordTop, parseU8]
    exact @parseBinaryArray_badType _ 1 ⟨[1, 11], [], [], []⟩ _ ⟨[11], [], [], []⟩
      rfl rfl (by omega)
  rw [@parseLoop_rec_error ⟨[7, 1, 0, 0, 0, 1, 11], [], [], []⟩ 7 _ rfl (by omega) hrec]

/-- C6 (amended): a BinaryArray whose `array_type_byte` is not 0 or whose
rank is not 1, and a Char primitive, all abort through `todo!()` (panics,
modelled by panic-marked errors) rather than returning typed
Unsupported-feature error values. -/
theorem c6_unsupported_panics :
    (∀ st id st1 arrayType st2, parseI32 st = .ok (id, st1) →
      parseU8 st1 = .ok (arrayType, st2) → arrayType ≠ 0 →
      parseBinaryArray st = .error (.todoArrayType arrayType) ∧
        (PError.todoArrayType arrayType).isPanic = true) ∧
    (∀ st id st1 st2 rank st3, parseI32 st = .ok (id, st1) →
      parseU8 st1 = .ok (0, st2) → parseI32 st2 = .ok (rank, st3) → rank ≠ 1 →
      parseBinaryArray st = .error (.todoArrayRank rank) ∧
        (PError.todoArrayRank rank).isPanic = true) ∧
    (∀ st, parsePrimitive .Char st = .error .todoChar ∧
      (PError.todoChar).isPanic = true) := by
  refine ⟨?_, ?_, ?_⟩
  · intro st id st1 arrayType st2 h1 h2 hat
    exact ⟨parseBinaryArray_badType h1 h2 hat, rfl⟩
  · intro st id st1 st2 rank st3 h1 h2 h3 hr
    exact ⟨parseBinaryArray_badRank h1 h2 h3 hr, rfl⟩
  · intro st
    exact ⟨rfl, rfl⟩

/-- Witness for C6 (amended) at concrete states. -/
theorem c6_unsupported_panics_witness :
    (parseBinaryArray ⟨[1, 0, 0, 0, 9], [], [], []⟩ =
        .error (.todoArrayType 9) ∧ (PError.todoArrayType 9).isPanic = true) ∧
    (parseBinaryArray ⟨[1, 0, 0, 0, 0, 2, 0, 0, 0], [], [], []⟩ =
        .error (.todoArrayRank 2) ∧ (PError.todoArrayRank 2).isPanic = true) ∧
    (parsePrimitive .Char ⟨[], [], [], []⟩ = .error .todoChar ∧
      (PError.todoChar).isPanic = true) :=
  ⟨c6_unsupported_panics.1 _ 1 ⟨[9], [], [], []⟩ 9 ⟨[], [], [], []⟩ rfl rfl (by omega),
   c6_unsupported_panics.2.1 _ 1 ⟨[0, 2, 0, 0, 0], [], [], []⟩ ⟨[2, 0, 0, 0], [], [], []⟩
     2 ⟨[], [], [], []⟩ rfl rfl rfl (by omega),
   c6_unsupported_panics.2.2 _⟩

/-! ## Claim C4: totality and failure modes of parse -/

/-- C4 counterexample: a `ClassWithId` record whose metadata id was never
declared makes the decoder abort through the panicking `HashMap` index
`class_metadata[&metadata_id]` instead of returning a typed error, so
`parse` does not always return a typed error value on malformed input. -/
theorem c4_counterexample :
    parse [0, 1, 0, 0, 0, 2, 0, 0, 0, 1, 0, 0, 0, 0, 0, 0, 0,
        1, 1, 0, 0, 0, 5, 0, 0, 0, 11] = .error (.missingClassMetadata 5) ∧
    (PError.missingClassMetadata 5).isPanic = true := by
  refine ⟨?_, rfl⟩
  rw [show ([0, 1, 0, 0, 0, 2, 0, 0, 0, 1, 0, 0, 0, 0, 0, 0, 0,
      1, 1, 0, 0, 0, 5, 0, 0, 0, 11] : List Nat) =
    0 :: (leBytes 4 1 ++ (leBytes 4 2 ++ (leBytes 4 1 ++ (leBytes 4 0 ++
      [1, 1, 0, 0, 0, 5, 0, 0, 0, 11])))) from rfl]
  rw [parse_eval (by norm_num) (by norm_num)]
  have hrec : parseRecordTop ⟨[1, 1, 0, 0, 0, 5, 0, 0, 0, 11], [], [], []⟩ =
      .error (.missingClassMetadata 5) := by
    simp only [parseRecordTop, parseU8]
    exact @parseClassWithId_missing _ 1 ⟨[5, 0, 0, 0, 11], [], [], []⟩ _
      ⟨[11], [], [], []⟩ rfl rfl rfl
  rw [@parseLoop_rec_error ⟨[1, 1, 0, 0, 0, 5, 0, 0, 0, 11], [], [], []⟩ 1 _ rfl (by omega) hrec]

/-- C4 (amended): `parse` is total in the sense that it returns either a
fully materialized graph or a failure value and never a partial graph;
every read past end-of-buffer is the Truncated (`eof`) error, and a
successful parse requires at least the 17 header bytes plus a terminator.
Some malformed inputs, however, abort via panics rather than typed
errors (see the counterexample). -/
theorem c4_parse_totality :
    (∀ n st, st.bytes.length < n → takeBytes n st = .error .eof) ∧
    (∀ st, st.bytes = [] → parseU8 st = .error .eof ∧ peekByte st = .error .eof) ∧
    (∀ bs g, parse bs = .ok g → 18 ≤ bs.length) ∧
    (∀ bs, bs.length < 18 → ∃ e, parse bs = .error e) := by
  have hok : ∀ bs g, parse bs = .ok g → 18 ≤ bs.length := by
    intro bs g hp
    simp only [parse] at hp
    split at hp
    · exact Except.noConfusion hp
    · next magic st1 heq1 =>
        have l1 := parseU8_len heq1
        split at hp
        · exact Except.noConfusion hp
        · split at hp
          · exact Except.noConfusion hp
          · next root st2 heq2 =>
              have l2 := parseI32_len heq2
              split at hp
              · exact Except.noConfusion hp
              · next hdr st3 heq3 =>
                  have l3 := parseI32_len heq3
                  split at hp
                  · exact Except.noConfusion hp
                  · next maj st4 heq4 =>
                      have l4 := parseI32_len heq4
                      split at hp
                      · exact Except.noConfusion hp
                      · next mino st5 heq5 =>
                          have l5 := parseI32_len heq5
                          split at hp
                          · exact Except.noConfusion hp
                          · split at hp
                            · exact Except.noConfusion hp
                            · split at hp
                              · exact Except.noConfusion hp
                              · next st6 heq6 =>
                                  have hne := parseLoop_ok_ne heq6
                                  have h1b : 1 ≤ st5.bytes.length := by
                                    cases hb : st5.bytes
                                    · exact absurd hb hne
                                    · simp [hb]
                                  simp only at l1 l2 l3 l4 l5
                                  omega
  refine ⟨?_, ?_, hok, ?_⟩
  · intro n st h
    unfold takeBytes
    rw [if_pos h]
  · intro st h
    constructor
    · unfold parseU8
      rw [h]
    · unfold peekByte
      rw [h]
  · intro bs hlen
    rcases hp : parse bs with e | g
    · exact ⟨e, rfl⟩
    · exact absurd (hok bs g hp) (by omega)

/-- Witness for C4 (amended) at concrete inputs. -/
theorem c4_parse_totality_witness :
    takeBytes 3 ⟨[1, 2], [], [], []⟩ = .error .eof ∧
    (parseU8 ⟨[], [], [], []⟩ = .error .eof ∧ peekByte ⟨[], [], [], []⟩ = .error .eof) ∧
    18 ≤ ([0, 1, 0, 0, 0, 2, 0, 0, 0, 1, 0, 0, 0, 0, 0, 0, 0, 11] : List Nat).length ∧
    ∃ e, parse [0, 1, 0] = .error e :=
  ⟨c4_parse_totality.1 3 ⟨[1, 2], [], [], []⟩ (by norm_num),
   c4_parse_totality.2.1 ⟨[], [], [], []⟩ rfl,
   c4_parse_totality.2.2.1 [0, 1, 0, 0, 0, 2, 0, 0, 0, 1, 0, 0, 0, 0, 0, 0, 0, 11]
     ⟨1, 2, [], []⟩ parse_minimal_ok,
   c4_parse_totality.2.2.2 [0, 1, 0] (by norm_num)⟩

/-! ## Claims C2 and C3: decoder invariants -/

theorem lookupA_append_self {α : Type} {l : List (Nat × α)} {k : Nat} {v : α} :
    (lookupA (l ++ [(k, v)]) k).isSome := by
  induction l with
  | nil => simp [lookupA]
  | cons p rest ih =>
      obtain ⟨pk, pv⟩ := p
      simp only [List.cons_append, lookupA]
      split
      · simp
      · exact ih

theorem addRecord_ok {id : Nat} {r : Record} {st st' : PState}
    (h : addRecord id r st = .ok st') :
    st'.records = st.records ++ [(id, r)] ∧ st'.bytes = st.bytes ∧
      st'.class_types = st.class_types ∧ st'.class_metadata = st.class_metadata := by
  unfold addRecord at h
  split at h
  · exact Except.noConfusion h
  · obtain rfl := by simpa using h.symm
    exact ⟨rfl, rfl, rfl, rfl⟩

theorem parseU8_head {st : PState} {b : Nat} {st1 : PState}
    (h : parseU8 st = .ok (b, st1)) : st.bytes.head? = some b := by
  cases hb : st.bytes with
  | nil => simp [parseU8, hb] at h
  | cons x xs =>
      simp only [parseU8, hb] at h
      obtain ⟨rfl, rfl⟩ := by simpa using h
      simp

theorem parseMemberTagged_ref {tag : Nat} {st1 : PState} {m : Member}
    {st' : PState} (h : parseMemberTagged tag st1 = .ok (m, st')) (id : Nat)
    (hm : m = .Reference id) :
    tag = 9 ∨ (lookupA st'.records id).isSome := by
  subst hm
  rw [parseMemberTagged.eq_def] at h
  split at h
  case h_7 =>
    left
    rfl
  case h_8 => exact absurd h (by simp)
  case h_9 =>
    split at h
    · exact Except.noConfusion h
    · exact absurd h (by simp)
  case h_10 =>
    split at h
    · exact Except.noConfusion h
    · exact absurd h (by simp)
  case h_11 => exact Except.noConfusion h
  all_goals
    (right
     split at h
     · exact Except.noConfusion h
     · split at h
       · exact Except.noConfusion h
       · next st3 hadd =>
           obtain ⟨rfl, rfl⟩ := by simpa using h
           rw [(addRecord_ok hadd).1]
           exact lookupA_append_self)

/-- C3 (amended): a `Reference` member produced by `parse_member` either
came from a `MemberReference` token (member tag 9, emitted without any
check against `records`) or from an inline nested record, in which case
its id is registered in `records` by `add_record`.  Tag-9 references are
never validated, so the claimed invariant can fail (see the
counterexample). -/
theorem c3_member_reference_registration :
    ∀ t st m st' id, parseMember t st = .ok (m, st') → m = .Reference id →
      st.bytes.head? = some 9 ∨ (lookupA st'.records id).isSome := by
  intro t st m st' id h hm
  subst hm
  rw [parseMember.eq_def] at h
  split at h
  · next p =>
      split at h
      · exact Except.noConfusion h
      · exact absurd h (by simp)
  · split at h
    · exact Except.noConfusion h
    · next tag st1 hu =>
        rcases parseMemberTagged_ref h id rfl with h9 | hreg
        · subst h9
          exact Or.inl (parseU8_head hu)
        · exact Or.inr hreg

/-- Witness for C3 (amended): an inline `BinaryObjectString` member
(member tag 6) yields a reference whose id is in `records`. -/
theorem c3_member_reference_registration_witness :
    parseMember .Object ⟨[6, 3, 0, 0, 0, 0], [], [], []⟩ =
      .ok (.Reference 3, ⟨[], [(3, .String [])], [], []⟩) ∧
    ((⟨[6, 3, 0, 0, 0, 0], [], [], []⟩ : PState).bytes.head? = some 9 ∨
      (lookupA ([(3, Record.String [])] : List (Nat × Record)) 3).isSome) := by
  have hp : parseMember .Object ⟨[6, 3, 0, 0, 0, 0], [], [], []⟩ =
      .ok (.Reference 3, ⟨[], [(3, .String [])], [], []⟩) := by
    rw [@parseMember_object ⟨[6, 3, 0, 0, 0, 0], [], [], []⟩ 6
      ⟨[3, 0, 0, 0, 0], [], [], []⟩ rfl]
    simp only [parseMemberTagged]
    rw [show parseBinaryObjectString ⟨[3, 0, 0, 0, 0], [], [], []⟩ =
      .ok ((3, .String []), ⟨[], [], [], []⟩) from rfl]
    rfl
  exact ⟨hp, c3_member_reference_registration .Object _ _ _ 3 hp rfl⟩

/-- C3 counterexample: `parse` accepts a stream whose only class has a
single member `Reference 99` while no record with id 99 exists, so a
successful parse does not guarantee that every `Reference(id)` satisfies
`id ∈ records`. -/
theorem c3_counterexample :
    ∃ g, parse [0, 1, 0, 0, 0, 2, 0, 0, 0, 1, 0, 0, 0, 0, 0, 0, 0,
        5, 1, 0, 0, 0, 1, 67, 1, 0, 0, 0, 1, 120, 2, 7, 0, 0, 0,
        9, 99, 0, 0, 0, 11] = .ok g ∧
      lookupA g.records 1 = some (.Class ⟨0, [.Reference 99]⟩) ∧
      lookupA g.records 99 = none := by
  refine ⟨⟨1, 2, [(1, .Class ⟨0, [.Reference 99]⟩)],
    [⟨[67], 7, false, [[120]], [.Object]⟩]⟩, ?_, rfl, rfl⟩
  rw [show ([0, 1, 0, 0, 0, 2, 0, 0, 0, 1, 0, 0, 0, 0, 0, 0, 0,
      5, 1, 0, 0, 0, 1, 67, 1, 0, 0, 0, 1, 120, 2, 7, 0, 0, 0,
      9, 99, 0, 0, 0, 11] : List Nat) =
    0 :: (leBytes 4 1 ++ (leBytes 4 2 ++ (leBytes 4 1 ++ (leBytes 4 0 ++
      [5, 1, 0, 0, 0, 1, 67, 1, 0, 0, 0, 1, 120, 2, 7, 0, 0, 0,
       9, 99, 0, 0, 0, 11])))) from rfl]
  rw [parse_eval (by norm_num) (by norm_num)]
  have hm1 : parseMember .Object ⟨[9, 99, 0, 0, 0, 11], [], [], []⟩ =
      .ok (.Reference 99, ⟨[11], [], [], []⟩) := by
    rw [@parseMember_object ⟨[9, 99, 0, 0, 0, 11], [], [], []⟩ 9
      ⟨[99, 0, 0, 0, 11], [], [], []⟩ rfl]
    exact parseMemberTagged_9 rfl
  have h4 : parseMembers [.Object] ⟨[9, 99, 0, 0, 0, 11], [], [], []⟩ =
      .ok ([.Reference 99], ⟨[11], [], [], []⟩) := by
    rw [parseMembers_cons hm1 (by norm_num)]
    rw [parseMembers_nil]
    rfl
  have hrec : parseRecordTop ⟨[5, 1, 0, 0, 0, 1, 67, 1, 0, 0, 0, 1, 120, 2,
      7, 0, 0, 0, 9, 99, 0, 0, 0, 11], [], [], []⟩ =
      .ok ((1, .Class ⟨0, [.Reference 99]⟩),
        ⟨[11], [], [⟨[67], 7, false, [[120]], [.Object]⟩], [(1, 0)]⟩) := by
    simp only [parseRecordTop, parseU8]
    exact @parseClassWMT_eval
      ⟨[1, 0, 0, 0, 1, 67, 1, 0, 0, 0, 1, 120, 2, 7, 0, 0, 0,
        9, 99, 0, 0, 0, 11], [], [], []⟩
      1 [67] [[120]]
      ⟨[2, 7, 0, 0, 0, 9, 99, 0, 0, 0, 11], [], [], []⟩
      [.Object]
      ⟨[7, 0, 0, 0, 9, 99, 0, 0, 0, 11], [], [], []⟩
      7
      ⟨[9, 99, 0, 0, 0, 11], [], [], []⟩ _ _ rfl rfl rfl h4
  rw [@parseLoop_cont ⟨[5, 1, 0, 0, 0, 1, 67, 1, 0, 0, 0, 1, 120, 2,
      7, 0, 0, 0, 9, 99, 0, 0, 0, 11], [], [], []⟩ 5 _ _ _ _ rfl (by omega) hrec rfl
      (by norm_num)]
  dsimp only [List.nil_append]
  rw [@parseLoop_stop ⟨[11], [(1, .Class ⟨0, [.Reference 99]⟩)],
    [⟨[67], 7, false, [[120]], [.Object]⟩], [(1, 0)]⟩ rfl]

/-- C2: the failing input.  A class declaring two members of type
`Object` whose member stream is `NullMultiple(2)` followed by `Null`
parses successfully into a class with three members, violating
`len(members) == len(class_types[class_type_id].member_types)`:
`parse_members` advances its type index by one per token instead of
continuing only until the member count is reached (contrast
`parse_binary_array`, which loops on `vals.len() < length`). -/
theorem c2_failing_input_eval :
    ∃ g, parse [0, 1, 0, 0, 0, 2, 0, 0, 0, 1, 0, 0, 0, 0, 0, 0, 0,
        5, 1, 0, 0, 0, 1, 67, 2, 0, 0, 0, 1, 120, 1, 121, 2, 2, 7, 0, 0, 0,
        13, 2, 10, 11] = .ok g ∧
      lookupA g.records 1 = some (.Class ⟨0, [.Null, .Null, .Null]⟩) ∧
      g.class_types = [⟨[67], 7, false, [[120], [121]], [.Object, .Object]⟩] ∧
      ([Member.Null, .Null, .Null].length = 3 ∧
        ([MemberType.Object, .Object] : List MemberType).length = 2) := by
  refine ⟨⟨1, 2, [(1, .Class ⟨0, [.Null, .Null, .Null]⟩)],
    [⟨[67], 7, false, [[120], [121]], [.Object, .Object]⟩]⟩, ?_, rfl, rfl,
    by norm_num⟩
  rw [show ([0, 1, 0, 0, 0, 2, 0, 0, 0, 1, 0, 0, 0, 0, 0, 0, 0,
      5, 1, 0, 0, 0, 1, 67, 2, 0, 0, 0, 1, 120, 1, 121, 2, 2, 7, 0, 0, 0,
      13, 2, 10, 11] : List Nat) =
    0 :: (leBytes 4 1 ++ (leBytes 4 2 ++ (leBytes 4 1 ++ (leBytes 4 0 ++
      [5, 1, 0, 0, 0, 1, 67, 2, 0, 0, 0, 1, 120, 1, 121, 2, 2, 7, 0, 0, 0,
       13, 2, 10, 11])))) from rfl]
  rw [parse_eval (by norm_num) (by norm_num)]
  have hm1 : parseMember .Object ⟨[13, 2, 10, 11], [], [], []⟩ =
      .ok (.NullMultiple 2, ⟨[10, 11], [], [], []⟩) := by
    rw [@parseMember_object ⟨[13, 2, 10, 11], [], [], []⟩ 13
      ⟨[2, 10, 11], [], [], []⟩ rfl]
    exact parseMemberTagged_13 rfl
  have hm2 : parseMember .Object ⟨[10, 11], [], [], []⟩ =
      .ok (.Null, ⟨[11], [], [], []⟩) := by
    rw [@parseMember_object ⟨[10, 11], [], [], []⟩ 10
      ⟨[11], [], [], []⟩ rfl]
    exact parseMemberTagged_10 _
  have h4 : parseMembers [.Object, .Object] ⟨[13, 2, 10, 11], [], [], []⟩ =
      .ok ([.Null, .Null, .Null], ⟨[11], [], [], []⟩) := by
    rw [parseMembers_cons hm1 (by norm_num)]
    rw [parseMembers_cons hm2 (by norm_num)]
    rw [parseMembers_nil]
    rfl
  have hrec : parseRecordTop ⟨[5, 1, 0, 0, 0, 1, 67, 2, 0, 0, 0, 1, 120, 1, 121,
      2, 2, 7, 0, 0, 0, 13, 2, 10, 11], [], [], []⟩ =
      .ok ((1, .Class ⟨0, [.Null, .Null, .Null]⟩),
        ⟨[11], [], [⟨[67], 7, false, [[120], [121]], [.Object, .Object]⟩], [(1, 0)]⟩) := by
    simp only [parseRecordTop, parseU8]
    exact @parseClassWMT_eval
      ⟨[1, 0, 0, 0, 1, 67, 2, 0, 0, 0, 1, 120, 1, 121,
        2, 2, 7, 0, 0, 0, 13, 2, 10, 11], [], [], []⟩
      1 [67] [[120], [121]]
      ⟨[2, 2, 7, 0, 0, 0, 13, 2, 10, 11], [], [], []⟩
      [.Object, .Object]
      ⟨[7, 0, 0, 0, 13, 2, 10, 11], [], [], []⟩
      7
      ⟨[13, 2, 10, 11], [], [], []⟩ _ _ rfl rfl rfl h4
  rw [@parseLoop_cont ⟨[5, 1, 0, 0, 0, 1, 67, 2, 0, 0, 0, 1, 120, 1, 121,
      2, 2, 7, 0, 0, 0, 13, 2, 10, 11], [], [], []⟩ 5 _ _ _ _ rfl (by omega) hrec rfl
      (by norm_num)]
  dsimp only [List.nil_append]
  rw [@parseLoop_stop ⟨[11], [(1, .Class ⟨0, [.Null, .Null, .Null]⟩)],
    [⟨[67], 7, false, [[120], [121]], [.Object, .Object]⟩], [(1, 0)]⟩ rfl]

/-! ## Output evolution of the writers (for claim C8) -/

theorem addTodo_output (i : Nat) (st : SState) :
    (addTodo i st).output = st.output ∧
      (addTodo i st).class_metadata = st.class_metadata := by
  unfold addTodo
  split
  · exact ⟨rfl, rfl⟩
  · exact ⟨rfl, rfl⟩

theorem writeString_out {s : List Nat} {st st' : SState}
    (h : writeString s st = some st') : ∃ d, st'.output = st.output ++ d := by
  unfold writeString at h
  split at h
  · obtain rfl := by simpa using h.symm
    exact ⟨_, rfl⟩
  · exact Option.noConfusion h

theorem writePrimitiveType_out (p : PrimitiveType) (st : SState) :
    ∃ b, (writePrimitiveType p st).output = st.output ++ [b] := by
  cases p <;> exact ⟨_, rfl⟩

theorem writeMemberType_out (t : MemberType) (st : SState) :
    ∃ b, (writeMemberType t st).output = st.output ++ [b] := by
  cases t <;> exact ⟨_, rfl⟩

theorem writePrimitive_out {v : Primitive} {st st' : SState}
    (h : writePrimitive v st = some st') : ∃ d, st'.output = st.output ++ d := by
  cases v <;> simp only [writePrimitive] at h <;>
    first
    | exact Option.noConfusion h
    | (obtain rfl := by simpa using h.symm
       exact ⟨_, rfl⟩)
    | (obtain rfl := by simpa using h.symm
       exact ⟨[], by simp⟩)
    | exact writeString_out h

theorem writeMemberTypeAdditionalInfo_out {t : MemberType} {st st' : SState}
    (h : writeMemberTypeAdditionalInfo t st = some st') :
    ∃ d, st'.output = st.output ++ d := by
  cases t <;> simp only [writeMemberTypeAdditionalInfo] at h
  case Primitive p =>
    obtain rfl := by simpa using h.symm
    exact ⟨_, rfl⟩
  case PrimitiveArray p =>
    obtain rfl := by simpa using h.symm
    exact ⟨_, rfl⟩
  case SystemClass name => exact writeString_out h
  case Class name libId =>
    rcases hs : writeString name st with _ | st1
    · rw [hs] at h
      exact Option.noConfusion h
    · rw [hs] at h
      obtain rfl := by simpa using h.symm
      obtain ⟨d, hd⟩ := writeString_out hs
      exact ⟨d ++ leBytes 4 libId, by simp [writeI32, hd]⟩
  all_goals
    obtain rfl := by simpa using h.symm
  all_goals exact ⟨[], by simp⟩

theorem writeStringsS_out {ss : List (List Nat)} {st st' : SState}
    (h : writeStringsS ss st = some st') : ∃ d, st'.output = st.output ++ d := by
  induction ss generalizing st with
  | nil =>
      obtain rfl := by simpa [writeStringsS] using h.symm
      exact ⟨[], by simp⟩
  | cons s ss ih =>
      unfold writeStringsS at h
      split at h
      · exact Option.noConfusion h
      · next st1 hs =>
          obtain ⟨d1, hd1⟩ := writeString_out hs
          obtain ⟨d2, hd2⟩ := ih h
          exact ⟨d1 ++ d2, by simp [hd2, hd1]⟩

theorem writeMemberTypesS_out (ts : List MemberType) (st : SState) :
    ∃ d, (writeMemberTypesS ts st).output = st.output ++ d := by
  induction ts generalizing st with
  | nil => exact ⟨[], by simp [writeMemberTypesS]⟩
  | cons t ts ih =>
      obtain ⟨b, hb⟩ := writeMemberType_out t st
      obtain ⟨d, hd⟩ := ih (writeMemberType t st)
      refine ⟨b :: d, ?_⟩
      simp only [writeMemberTypesS]
      rw [hd, hb]
      simp

theorem writeAdditionalInfoS_out {ts : List MemberType} {st st' : SState}
    (h : writeAdditionalInfoS ts st = some st') : ∃ d, st'.output = st.output ++ d := by
  induction ts generalizing st with
  | nil =>
      obtain rfl := by simpa [writeAdditionalInfoS] using h.symm
      exact ⟨[], by simp⟩
  | cons t ts ih =>
      unfold writeAdditionalInfoS at h
      split at h
      · exact Option.noConfusion h
      · next st1 hs =>
          obtain ⟨d1, hd1⟩ := writeMemberTypeAdditionalInfo_out hs
          obtain ⟨d2, hd2⟩ := ih h
          exact ⟨d1 ++ d2, by simp [hd2, hd1]⟩

theorem writeClassType_out {id : Nat} {ct : ClassType} {st st' : SState}
    (h : writeClassType id ct st = some st') : ∃ d, st'.output = st.output ++ d := by
  unfold writeClassType at h
  split at h
  · exact Option.noConfusion h
  · next st1 hs1 =>
      split at h
      · exact Option.noConfusion h
      · next st2 hs2 =>
          obtain ⟨d1, hd1⟩ := writeString_out hs1
          obtain ⟨d2, hd2⟩ := writeStringsS_out hs2
          obtain ⟨d3, hd3⟩ := writeMemberTypesS_out ct.member_types st2
          obtain ⟨d4, hd4⟩ := writeAdditionalInfoS_out h
          refine ⟨leBytes 4 id ++ d1 ++ (leBytes 4 ct.member_names.length ++ d2) ++ d3 ++ d4, ?_⟩
          rw [hd4, hd3]
          simp [hd2, hd1, writeI32]

theorem writeMember_out_md {m : Member} {t : MemberType} {st st' : SState}
    (h : writeMember m t st = some st') :
    (∃ d, st'.output = st.output ++ d) ∧ st'.class_metadata = st.class_metadata := by
  cases t <;> simp only [writeMember] at h
  case Primitive p =>
    cases m <;> simp only at h
    case Primitive v =>
      exact ⟨writePrimitive_out h, ((writePrimitive_sameCtl h).2.2.1)⟩
    all_goals exact Option.noConfusion h
  all_goals (
    cases m <;> simp only at h
    case Primitive v =>
      constructor
      · obtain ⟨d, hd⟩ := writePrimitive_out h
        obtain ⟨b, hb⟩ := writePrimitiveType_out v.primitiveType (writeU8 8 st)
        refine ⟨8 :: b :: d, ?_⟩
        rw [hd, hb]
        simp [writeU8]
      · have h1 := (writePrimitive_sameCtl h).2.2.1
        rw [h1]
        rfl
    case Reference i =>
      obtain rfl := by simpa using h.symm
      refine ⟨⟨9 :: leBytes 4 i, ?_⟩, ?_⟩
      · rw [(addTodo_output i _).1]
        simp [writeI32, writeU8]
      · rw [(addTodo_output i _).2]
        rfl
    case Null =>
      obtain rfl := by simpa using h.symm
      exact ⟨⟨[10], rfl⟩, rfl⟩
    case NullMultiple count =>
      split at h
      · obtain rfl := by simpa using h.symm
        exact ⟨⟨[13, count % 256], by simp [writeU8]⟩, rfl⟩
      · obtain rfl := by simpa using h.symm
        exact ⟨⟨14 :: leBytes 4 count, by simp [writeI32, writeU8]⟩, rfl⟩)

theorem writeMembers_out_md {pairs : List (Member × MemberType)} {st st' : SState}
    (h : writeMembers pairs st = some st') :
    (∃ d, st'.output = st.output ++ d) ∧ st'.class_metadata = st.class_metadata := by
  induction pairs generalizing st with
  | nil =>
      obtain rfl := by simpa [writeMembers] using h.symm
      exact ⟨⟨[], by simp⟩, rfl⟩
  | cons p rest ih =>
      obtain ⟨m, t⟩ := p
      unfold writeMembers at h
      split at h
      · exact Option.noConfusion h
      · next st1 hw =>
          obtain ⟨⟨d1, hd1⟩, hm1⟩ := writeMember_out_md hw
          obtain ⟨⟨d2, hd2⟩, hm2⟩ := ih h
          exact ⟨⟨d1 ++ d2, by simp [hd2, hd1]⟩, by rw [hm2, hm1]⟩

/-! ## Claim C8: class emission and metadata interning -/

/-- C8: when `write_record` emits a `Class` record: a system class is
written with record tag 4 every time, leaving `class_metadata` untouched
(never deduplicated); a non-system class whose `class_type_id` is
already in `class_metadata` is written with record tag 1 carrying this
record's id and then the previously recorded record id, with
`class_metadata` unchanged; a non-system class not yet in
`class_metadata` is written with record tag 5 and
`class_metadata[class_type_id] = id` is recorded. -/
theorem c8_class_emission {g : DeserializedRecord} {id : Nat} {c : Class}
    {ct : ClassType} {st st' : SState}
    (hct : g.class_types[c.class_type_id]? = some ct)
    (hw : writeRecord g id (.Class c) st = some st') :
    (ct.system_class = true →
      (∃ d, st'.output = st.output ++ 4 :: d) ∧
      st'.class_metadata = st.class_metadata) ∧
    (∀ classId, ct.system_class = false →
      lookupA st.class_metadata c.class_type_id = some classId →
      (∃ d, st'.output = st.output ++ 1 :: (leBytes 4 id ++ (leBytes 4 classId ++ d))) ∧
      st'.class_metadata = st.class_metadata) ∧
    (ct.system_class = false →
      lookupA st.class_metadata c.class_type_id = none →
      (∃ d, st'.output = st.output ++ 5 :: d) ∧
      st'.class_metadata = st.class_metadata ++ [(c.class_type_id, id)]) := by
  simp only [writeRecord, hct] at hw
  refine ⟨?_, ?_, ?_⟩
  · intro hsys
    rw [if_pos hsys] at hw
    rcases hhp : writeClassType id ct (writeU8 4 st) with _ | st2
    · rw [hhp] at hw
      exact Option.noConfusion hw
    · rw [hhp] at hw
      obtain ⟨⟨d2, hd2⟩, hm2⟩ := writeMembers_out_md hw
      obtain ⟨d1, hd1⟩ := writeClassType_out hhp
      have hm1 := (writeClassType_sameCtl hhp).2.2.1
      constructor
      · refine ⟨d1 ++ d2, ?_⟩
        rw [hd2, hd1]
        simp [writeU8]
      · rw [hm2, hm1]
        rfl
  · intro classId hsys hmd
    rw [if_neg (by simp [hsys]), hmd] at hw
    obtain ⟨⟨d2, hd2⟩, hm2⟩ := writeMembers_out_md hw
    constructor
    · refine ⟨d2, ?_⟩
      rw [hd2]
      simp [writeI32, writeU8]
    · rw [hm2]
      rfl
  · intro hsys hmd
    rw [if_neg (by simp [hsys]), hmd] at hw
    rcases hhp : writeClassType id ct (writeU8 5 st) with _ | st1
    · rw [hhp] at hw
      exact Option.noConfusion hw
    · rw [hhp] at hw
      simp only at hw
      obtain ⟨⟨d2, hd2⟩, hm2⟩ := writeMembers_out_md hw
      obtain ⟨d1, hd1⟩ := writeClassType_out hhp
      have hm1 := (writeClassType_sameCtl hhp).2.2.1
      constructor
      · refine ⟨d1 ++ leBytes 4 ct.library_id ++ d2, ?_⟩
        rw [hd2]
        simp [writeI32, hd1, writeU8]
      · rw [hm2]
        simp [writeI32, hm1, writeU8]

/-- Witness for C8 at a concrete graph: the first emission of a
non-system class record uses tag 5 and interns
`class_metadata[class_type_id] = id`. -/
theorem c8_class_emission_witness :
    (⟨1, 2, [], [⟨[67], 0, false, [], []⟩]⟩ : DeserializedRecord).class_types[(0 : Nat)]? =
        some ⟨[67], 0, false, [], []⟩ ∧
    writeRecord ⟨1, 2, [], [⟨[67], 0, false, [], []⟩]⟩ 1 (.Class ⟨0, []⟩)
        ⟨[], [], [], [], []⟩ =
      some ⟨[5, 1, 0, 0, 0, 1, 67, 0, 0, 0, 0, 0, 0, 0, 0], [], [], [(0, 1)], []⟩ ∧
    (∃ d, ([5, 1, 0, 0, 0, 1, 67, 0, 0, 0, 0, 0, 0, 0, 0] : List Nat) = [] ++ 5 :: d) ∧
    ([(0, 1)] : List (Nat × Nat)) = ([] : List (Nat × Nat)) ++ [(0, 1)] := by
  have hct : (⟨1, 2, [], [⟨[67], 0, false, [], []⟩]⟩ :
      DeserializedRecord).class_types[(0 : Nat)]? = some ⟨[67], 0, false, [], []⟩ := rfl
  have hw : writeRecord ⟨1, 2, [], [⟨[67], 0, false, [], []⟩]⟩ 1 (.Class ⟨0, []⟩)
      ⟨[], [], [], [], []⟩ =
      some ⟨[5, 1, 0, 0, 0, 1, 67, 0, 0, 0, 0, 0, 0, 0, 0], [], [], [(0, 1)], []⟩ := by
    simp [writeRecord, writeClassType, writeString, writeLength, writeU8, writeI32,
      writeMemberTypesS, writeAdditionalInfoS, writeStringsS, writeMembers, lookupA,
      leBytes]
  exact ⟨hct, hw, (c8_class_emission hct hw).2.2 rfl rfl⟩

/-- The full serializer run up to (but excluding) the terminator byte,
exposing the final serializer state. -/
def serializeRun (g : DeserializedRecord) : Option SState :=
  serializeLoop g (addTodo g.root_id (enqueueLibs g.records (headerState g)))

/-- The `serialize` entry point: header, libraries, root, FIFO emission,
terminator byte 11.  `none` models a serializer panic. -/
def serialize (g : DeserializedRecord) : Option (List Nat) :=
  match serializeRun g with
  | none => none
  | some st => some ((writeU8 11 st).output)

/-! ## Claim C10: termination with at most one emission per record

`serializeLoop` is accepted by well-founded recursion on
`(undoneCard g st, todo length)`, which is the formal counterpart of the
source's termination argument: `add_todo` only enqueues ids it has not
marked done, so every pop either shrinks the set of undone graph ids or
shortens the queue.  The invariant below turns that into the behavioral
statement: the drained queue and a duplicate-free emission sequence. -/

theorem serializeLoop_inv {g : DeserializedRecord} {st st' : SState}
    (h : serializeLoop g st = some st')
    (hn : (st.order ++ st.todo).Nodup)
    (htd : ∀ x ∈ st.todo, x ∈ st.done)
    (hod : ∀ x ∈ st.order, x ∈ st.done)
    (hkeys : ∀ x ∈ st.order, x ∈ g.records.map Prod.fst) :
    st'.todo = [] ∧ st'.order.Nodup ∧
      ∀ x ∈ st'.order, x ∈ g.records.map Prod.fst := by
  revert h hn htd hod hkeys
  induction st using serializeLoop.induct g with
  | case1 st htodo =>
      intro h hn htd hod hkeys
      rw [serializeLoop_nil htodo] at h
      obtain rfl := by simpa using h.symm
      refine ⟨htodo, ?_, hkeys⟩
      rw [htodo] at hn
      simpa using hn
  | case2 st id rest htodo hlook =>
      intro h hn htd hod hkeys
      rw [serializeLoop_missing htodo hlook] at h
      exact Option.noConfusion h
  | case3 st id rest htodo r hlook hw =>
      intro h hn htd hod hkeys
      rw [serializeLoop_write_none htodo hlook hw] at h
      exact Option.noConfusion h
  | case4 st id rest htodo r hlook st1 hw ih =>
      intro h hn htd hod hkeys
      rw [serializeLoop_cons htodo hlook hw] at h
      obtain ⟨delta, hdone, htodoq, hnd, hfresh, horder⟩ := writeRecord_q hw
      have horder' : st1.order = st.order := horder
      have htodoq' : st1.todo = rest ++ delta := htodoq
      have hdone' : st1.done = delta.reverse ++ st.done := hdone
      have hid : id ∈ st.done := htd id (by rw [htodo]; exact List.mem_cons_self _ _)
      have hrest : ∀ x ∈ rest, x ∈ st.done :=
        fun x hx => htd x (by rw [htodo]; exact List.mem_cons_of_mem _ hx)
      rw [htodo] at hn
      have hn' : ((st1.order ++ [id]) ++ st1.todo).Nodup := by
        rw [horder', htodoq']
        have hAll : (st.order ++ [id] ++ rest ++ delta).Nodup := by
          rw [List.nodup_append]
          refine ⟨?_, hnd, ?_⟩
          · have heq : st.order ++ id :: rest = st.order ++ [id] ++ rest := by simp
            rwa [heq] at hn
          · intro a ha had
            refine (hfresh a had).2 ?_
            rcases List.mem_append.mp ha with ha | ha
            · rcases List.mem_append.mp ha with ha | ha
              · exact hod a ha
              · have haid : a = id := by simpa using ha
                rw [haid]
                exact hid
            · exact hrest a ha
        simpa [List.append_assoc] using hAll
      have htd' : ∀ x ∈ st1.todo, x ∈ st1.done := by
        rw [htodoq', hdone']
        intro x hx
        rcases List.mem_append.mp hx with hx | hx
        · exact List.mem_append_right _ (hrest x hx)
        · exact List.mem_append_left _ (List.mem_reverse.mpr hx)
      have hod' : ∀ x ∈ st1.order ++ [id], x ∈ st1.done := by
        rw [horder', hdone']
        intro x hx
        rcases List.mem_append.mp hx with hx | hx
        · exact List.mem_append_right _ (hod x hx)
        · have hxid : x = id := by simpa using hx
          rw [hxid]
          exact List.mem_append_right _ hid
      have hkeys' : ∀ x ∈ st1.order ++ [id], x ∈ g.records.map Prod.fst := by
        rw [horder']
        intro x hx
        rcases List.mem_append.mp hx with hx | hx
        · exact hkeys x hx
        · have hxid : x = id := by simpa using hx
          rw [hxid]
          exact List.mem_map.mpr ⟨(id, r), lookupA_mem hlook, rfl⟩
      exact ih h hn' htd' hod' hkeys'

/-- C10: the emission loop of `serialize` terminates on every finite
graph, cyclic `Reference` chains included — in this development the loop
is accepted by well-founded recursion on the count of graph ids not yet
in `done`, mirroring the source's argument that `add_todo` enqueues each
id at most once.  Behaviorally: every run either panics (`none`) or
ends with the FIFO queue drained and a duplicate-free emission sequence
of record keys, so at most one emission happens per record of the
graph. -/
theorem c10_termination_unique_emission (g : DeserializedRecord) :
    serializeRun g = none ∨
      ∃ st, serializeRun g = some st ∧ st.todo = [] ∧ st.order.Nodup ∧
        (∀ x ∈ st.order, x ∈ g.records.map Prod.fst) ∧
        st.order.length ≤ g.records.length := by
  rcases hrun : serializeRun g with _ | st
  · exact Or.inl rfl
  · refine Or.inr ⟨st, rfl, ?_⟩
    unfold serializeRun at hrun
    have hq0 := enqueueLibs_q g.records (headerState g)
    have hq1 := StepsToQ_addTodo (S := g.root_id :: g.records.map Prod.fst)
        (enqueueLibs g.records (headerState g)) (List.mem_cons_self _ _)
    have hq := StepsToQ_trans
      (StepsToQ_mono (fun x hx => List.mem_cons_of_mem _ hx) hq0) hq1
    obtain ⟨delta, hdone, htodo, hnd, hfresh, horder⟩ := hq
    have h1 : (addTodo g.root_id (enqueueLibs g.records (headerState g))).done =
        delta.reverse ++ [] := hdone
    have h2 : (addTodo g.root_id (enqueueLibs g.records (headerState g))).todo =
        [] ++ delta := htodo
    have h3 : (addTodo g.root_id (enqueueLibs g.records (headerState g))).order =
        [] := horder
    rw [List.append_nil] at h1
    rw [List.nil_append] at h2
    have hinv := serializeLoop_inv hrun
      (by rw [h3, h2]; simpa using hnd)
      (by rw [h2, h1]; intro x hx; exact List.mem_reverse.mpr hx)
      (by rw [h3]; intro x hx; simp at hx)
      (by rw [h3]; intro x hx; simp at hx)
    obtain ⟨ht, hnodup, hkeys⟩ := hinv
    refine ⟨ht, hnodup, hkeys, ?_⟩
    calc st.order.length = st.order.toFinset.card :=
          (List.toFinset_card_of_nodup hnodup).symm
      _ ≤ (g.records.map Prod.fst).toFinset.card :=
          Finset.card_le_card
            (fun x hx => List.mem_toFinset.mpr (hkeys x (List.mem_toFinset.mp hx)))
      _ ≤ (g.records.map Prod.fst).length := List.toFinset_card_le _
      _ = g.records.length := List.length_map _ _

/-! ## Claim C7: the emitted set is libraries plus reachability from the root

`Reaches g` is the closure the claim describes: the root id, every
`BinaryLibrary` entry, and everything reachable from there along the
`Reference` members the member walk of `write_record` visits. -/

inductive Reaches (g : DeserializedRecord) : Nat → Prop where
  | root : Reaches g g.root_id
  | lib : ∀ {id : Nat} {name : List Nat},
      (id, Record.BinaryLibrary name) ∈ g.records → Reaches g id
  | step : ∀ {id x : Nat} {r : Record}, Reaches g id →
      lookupA g.records id = some r → x ∈ recordRefs g r → Reaches g x

theorem addTodo_self_done (i : Nat) (st : SState) : i ∈ (addTodo i st).done := by
  unfold addTodo
  split
  · next hmem => exact hmem
  · exact List.mem_cons_self _ _

theorem addTodo_done_spec {x i : Nat} {st : SState}
    (h : x ∈ (addTodo i st).done) : x = i ∨ x ∈ st.done := by
  unfold addTodo at h
  split at h
  · exact Or.inr h
  · rcases List.mem_cons.mp h with h | h
    · exact Or.inl h
    · exact Or.inr h

theorem addTodo_todo_spec {x i : Nat} {st : SState}
    (h : x ∈ (addTodo i st).todo) : x = i ∨ x ∈ st.todo := by
  unfold addTodo at h
  split at h
  · exact Or.inr h
  · rcases List.mem_append.mp h with h | h
    · exact Or.inr h
    · exact Or.inl (by simpa using h)

theorem lookupA_eq_of_mem_nodup {α : Type} {l : List (Nat × α)} {k : Nat} {v : α}
    (hnd : (l.map Prod.fst).Nodup) (hmem : (k, v) ∈ l) : lookupA l k = some v := by
  induction l with
  | nil => simp at hmem
  | cons p rest ih =>
      obtain ⟨pk, pv⟩ := p
      rcases List.mem_cons.mp hmem with heq | hmem'
      · cases heq
        simp [lookupA]
      · have hk : ¬pk = k := by
          intro hkk
          have hkmem : k ∈ rest.map Prod.fst :=
            List.mem_map.mpr ⟨(k, v), hmem', rfl⟩
          rw [List.map_cons, List.nodup_cons] at hnd
          exact hnd.1 (by rw [hkk]; exact hkmem)
        simp only [lookupA, if_neg hk]
        exact ih (by rw [List.map_cons, List.nodup_cons] at hnd; exact hnd.2) hmem'

theorem enqueueLibs_done_spec : ∀ (recs : List (Nat × Record)) (st : SState) (x : Nat),
    x ∈ (enqueueLibs recs st).done →
    x ∈ st.done ∨ ∃ name, (x, Record.BinaryLibrary name) ∈ recs := by
  intro recs
  induction recs with
  | nil => exact fun st x hx => Or.inl hx
  | cons p rest ih =>
      intro st x hx
      obtain ⟨id, r⟩ := p
      cases r
      case BinaryLibrary name =>
        simp only [enqueueLibs] at hx
        rcases ih _ x hx with hx | ⟨nm, hmem⟩
        · rcases addTodo_done_spec hx with rfl | hx
          · exact Or.inr ⟨name, List.mem_cons_self _ _⟩
          · exact Or.inl hx
        · exact Or.inr ⟨nm, List.mem_cons_of_mem _ hmem⟩
      all_goals (
        simp only [enqueueLibs] at hx
        rcases ih _ x hx with hx | ⟨nm, hmem⟩
        · exact Or.inl hx
        · exact Or.inr ⟨nm, List.mem_cons_of_mem _ hmem⟩)

theorem enqueueLibs_todo_spec : ∀ (recs : List (Nat × Record)) (st : SState) (x : Nat),
    x ∈ (enqueueLibs recs st).todo →
    x ∈ st.todo ∨ ∃ name, (x, Record.BinaryLibrary name) ∈ recs := by
  intro recs
  induction recs with
  | nil => exact fun st x hx => Or.inl hx
  | cons p rest ih =>
      intro st x hx
      obtain ⟨id, r⟩ := p
      cases r
      case BinaryLibrary name =>
        simp only [enqueueLibs] at hx
        rcases ih _ x hx with hx | ⟨nm, hmem⟩
        · rcases addTodo_todo_spec hx with rfl | hx
          · exact Or.inr ⟨name, List.mem_cons_self _ _⟩
          · exact Or.inl hx
        · exact Or.inr ⟨nm, List.mem_cons_of_mem _ hmem⟩
      all_goals (
        simp only [enqueueLibs] at hx
        rcases ih _ x hx with hx | ⟨nm, hmem⟩
        · exact Or.inl hx
        · exact Or.inr ⟨nm, List.mem_cons_of_mem _ hmem⟩)

theorem enqueueLibs_libs_done : ∀ (recs : List (Nat × Record)) (st : SState)
    {id : Nat} {name : List Nat}, (id, Record.BinaryLibrary name) ∈ recs →
    id ∈ (enqueueLibs recs st).done := by
  intro recs
  induction recs with
  | nil => intro st id name h; simp at h
  | cons p rest ih =>
      intro st id name h
      obtain ⟨pid, pr⟩ := p
      rcases List.mem_cons.mp h with heq | hmem
      · cases heq
        simp only [enqueueLibs]
        obtain ⟨delta, hdone, _, _, _, _⟩ := enqueueLibs_q rest (addTodo id st)
        rw [hdone]
        exact List.mem_append_right _ (addTodo_self_done _ _)
      · simp only [enqueueLibs]
        exact ih _ hmem

theorem writeMember_ref_done {m : Member} {t : MemberType} {st st' : SState} {x : Nat}
    (h : writeMember m t st = some st') (hx : memberRefs t m = some x) :
    x ∈ st'.done := by
  cases t <;> cases m <;> simp only [writeMember, memberRefs] at h hx <;>
    first
    | exact Option.noConfusion hx
    | (obtain rfl := by simpa using hx.symm
       obtain rfl := by simpa using h.symm
       exact addTodo_self_done _ _)

theorem writeMembers_refs_done {pairs : List (Member × MemberType)} {st st' : SState}
    (h : writeMembers pairs st = some st') :
    ∀ x ∈ pairs.filterMap (fun p => memberRefs p.2 p.1), x ∈ st'.done := by
  induction pairs generalizing st with
  | nil => intro x hx; simp at hx
  | cons p rest ih =>
      obtain ⟨m, t⟩ := p
      unfold writeMembers at h
      split at h
      · exact Option.noConfusion h
      · next st1 hwm =>
          intro x hx
          rw [List.filterMap_cons] at hx
          cases hmr : memberRefs t m with
          | none => rw [hmr] at hx; exact ih h x hx
          | some y =>
              rw [hmr] at hx
              rcases List.mem_cons.mp hx with rfl | hx
              · have h1 := writeMember_ref_done hwm hmr
                obtain ⟨delta, hdone, _, _, _, _⟩ := writeMembers_q h
                rw [hdone]
                exact List.mem_append_right _ h1
              · exact ih h x hx

theorem writeRecord_refs_done {g : DeserializedRecord} {id : Nat} {r : Record}
    {st st' : SState} (h : writeRecord g id r st = some st') :
    ∀ x ∈ recordRefs g r, x ∈ st'.done := by
  cases r <;> simp only [writeRecord] at h
  case BinaryLibrary name => intro x hx; simp [recordRefs] at hx
  case Class c =>
    rcases hct : g.class_types[c.class_type_id]? with _ | ct
    · rw [hct] at h; exact Option.noConfusion h
    · rw [hct] at h
      simp only at h
      rcases hhp : (if ct.system_class then writeClassType id ct (writeU8 4 st)
        else
          match lookupA st.class_metadata c.class_type_id with
          | some classId => some (writeI32 classId (writeI32 id (writeU8 1 st)))
          | none =>
            match writeClassType id ct (writeU8 5 st) with
            | none => none
            | some st1 =>
              let st2 := writeI32 ct.library_id st1
              some { st2 with
                class_metadata := st2.class_metadata ++ [(c.class_type_id, id)] }) with
        _ | st2
      · rw [hhp] at h; exact Option.noConfusion h
      · rw [hhp] at h
        intro x hx
        have hx' : x ∈ (c.members.zip ct.member_types).filterMap
            (fun p => memberRefs p.2 p.1) := by
          simpa [recordRefs, hct] using hx
        exact writeMembers_refs_done h x hx'
  case BinaryArray t vals =>
    rcases hai : writeMemberTypeAdditionalInfo t
        (writeMemberType t (writeI32 vals.length
          (writeI32 1 (writeU8 0 (writeI32 id (writeU8 7 st)))))) with _ | st2
    · rw [hai] at h; exact Option.noConfusion h
    · rw [hai] at h
      intro x hx
      have hx' : x ∈ (vals.map (fun v => (v, t))).filterMap
          (fun p => memberRefs p.2 p.1) := by
        simp only [List.filterMap_map]
        simpa [recordRefs, Function.comp] using hx
      exact writeMembers_refs_done h x hx'
  case PrimitiveArray t vals => intro x hx; simp [recordRefs] at hx
  case String s => intro x hx; simp [recordRefs] at hx

/-- The reachability invariant of the emission loop: `done` is exactly
the emitted-or-pending ids, every emitted record's walked references are
already in `done`, and everything in `done` is reachable. -/
theorem serializeLoop_reach {g : DeserializedRecord} {st st' : SState}
    (h : serializeLoop g st = some st')
    (hI1 : ∀ x, x ∈ st.done ↔ (x ∈ st.order ∨ x ∈ st.todo))
    (hI2 : ∀ y ∈ st.order, ∃ r, lookupA g.records y = some r ∧
      ∀ x ∈ recordRefs g r, x ∈ st.done)
    (hI3 : ∀ x ∈ st.done, Reaches g x) :
    (∀ x, x ∈ st'.done ↔ x ∈ st'.order) ∧
    (∀ y ∈ st'.order, ∃ r, lookupA g.records y = some r ∧
      ∀ x ∈ recordRefs g r, x ∈ st'.done) ∧
    (∀ x ∈ st'.done, Reaches g x) ∧
    (∀ x ∈ st.done, x ∈ st'.done) := by
  revert h hI1 hI2 hI3
  induction st using serializeLoop.induct g with
  | case1 st htodo0 =>
      intro h hI1 hI2 hI3
      rw [serializeLoop_nil htodo0] at h
      obtain rfl := by simpa using h.symm
      refine ⟨?_, hI2, hI3, fun x hx => hx⟩
      intro x
      rw [hI1 x, htodo0]
      simp
  | case2 st id rest htodo0 hlook =>
      intro h _ _ _
      rw [serializeLoop_missing htodo0 hlook] at h
      exact Option.noConfusion h
  | case3 st id rest htodo0 r hlook hw =>
      intro h _ _ _
      rw [serializeLoop_write_none htodo0 hlook hw] at h
      exact Option.noConfusion h
  | case4 st id rest htodo0 r hlook st1 hw ih =>
      intro h hI1 hI2 hI3
      rw [serializeLoop_cons htodo0 hlook hw] at h
      obtain ⟨delta, hdone, htodoq, hnd, hfresh, horder⟩ := writeRecord_q hw
      have horder' : st1.order = st.order := horder
      have htodoq' : st1.todo = rest ++ delta := htodoq
      have hdone' : st1.done = delta.reverse ++ st.done := hdone
      have hidd : id ∈ st.done :=
        (hI1 id).mpr (Or.inr (by rw [htodo0]; exact List.mem_cons_self _ _))
      have hRid : Reaches g id := hI3 id hidd
      have hrefs := writeRecord_refs_done hw
      have hI1' : ∀ x, x ∈ st1.done ↔ (x ∈ st1.order ++ [id] ∨ x ∈ st1.todo) := by
        intro x
        rw [hdone', horder', htodoq']
        have h0 := hI1 x
        rw [htodo0] at h0
        simp only [List.mem_append, List.mem_reverse, List.mem_cons,
          List.not_mem_nil, or_false] at h0 ⊢
        tauto
      have hI2' : ∀ y ∈ st1.order ++ [id], ∃ rr, lookupA g.records y = some rr ∧
          ∀ x ∈ recordRefs g rr, x ∈ st1.done := by
        intro y hy
        rcases List.mem_append.mp hy with hy | hy
        · rw [horder'] at hy
          obtain ⟨rr, hl, hrs⟩ := hI2 y hy
          refine ⟨rr, hl, fun x hx => ?_⟩
          rw [hdone']
          exact List.mem_append_right _ (hrs x hx)
        · have hyid : y = id := by simpa using hy
          rw [hyid]
          exact ⟨r, hlook, hrefs⟩
      have hI3' : ∀ x ∈ st1.done, Reaches g x := by
        intro x hx
        rw [hdone'] at hx
        rcases List.mem_append.mp hx with hx | hx
        · exact Reaches.step hRid hlook (hfresh x (List.mem_reverse.mp hx)).1
        · exact hI3 x hx
      obtain ⟨c1, c2, c3, c4⟩ := ih h hI1' hI2' hI3'
      refine ⟨c1, c2, c3, fun x hx => c4 x ?_⟩
      rw [hdone']
      exact List.mem_append_right _ hx

/-- The library phase: while the front of the queue consists of
`BinaryLibrary` ids, the loop emits exactly those ids in order, touching
nothing else. -/
theorem serializeLoop_libs_first {g : DeserializedRecord} (L : List Nat) :
    ∀ {T : List Nat} {st st' : SState},
    serializeLoop g st = some st' →
    st.todo = L ++ T →
    (∀ x ∈ L, ∃ name, lookupA g.records x = some (.BinaryLibrary name)) →
    ∃ st1, serializeLoop g st1 = some st' ∧ st1.order = st.order ++ L ∧
      st1.todo = T ∧ st1.done = st.done := by
  induction L with
  | nil =>
      intro T st st' h htodo hlibs
      exact ⟨st, h, by simp, by simpa using htodo, rfl⟩
  | cons x L ih =>
      intro T st st' h htodo hlibs
      obtain ⟨name, hlook⟩ := hlibs x (List.mem_cons_self _ _)
      have htodo' : st.todo = x :: (L ++ T) := by simpa using htodo
      rcases hwr : writeRecord g x (.BinaryLibrary name) { st with todo := L ++ T }
        with _ | stw
      · rw [serializeLoop_write_none htodo' hlook hwr] at h
        exact Option.noConfusion h
      · rw [serializeLoop_cons htodo' hlook hwr] at h
        have hsc : sameCtl { st with todo := L ++ T } stw := by
          simp only [writeRecord] at hwr
          exact sameCtl_trans (sameCtl_trans (writeU8_sameCtl _ _)
            (writeI32_sameCtl _ _)) (writeString_sameCtl hwr)
        have htodo2 : ({ stw with order := stw.order ++ [x] } : SState).todo = L ++ T :=
          hsc.1
        have hlibs2 : ∀ y ∈ L, ∃ name, lookupA g.records y = some (.BinaryLibrary name) :=
          fun y hy => hlibs y (List.mem_cons_of_mem _ hy)
        obtain ⟨st1, h1, h2, h3, h4⟩ := ih h htodo2 hlibs2
        refine ⟨st1, h1, ?_, h3, ?_⟩
        · rw [h2]
          show (stw.order ++ [x]) ++ L = st.order ++ x :: L
          rw [hsc.2.2.2]
          simp
        · rw [h4]
          exact hsc.2.1

/-- After the library phase: once every library id is in `done` and the
queue holds no library ids, no library record can ever be emitted again
(everything later enqueued is fresh, hence not a library). -/
theorem serializeLoop_nolib {g : DeserializedRecord} {st st' : SState}
    (h : serializeLoop g st = some st')
    (hlibdone : ∀ p ∈ g.records, ∀ name, p.2 = Record.BinaryLibrary name →
      p.1 ∈ st.done)
    (htodoL : ∀ x ∈ st.todo, ∀ name,
      lookupA g.records x ≠ some (.BinaryLibrary name)) :
    ∃ tail, st'.order = st.order ++ tail ∧
      ∀ x ∈ tail, ∀ name, lookupA g.records x ≠ some (.BinaryLibrary name) := by
  revert h hlibdone htodoL
  induction st using serializeLoop.induct g with
  | case1 st htodo0 =>
      intro h _ _
      rw [serializeLoop_nil htodo0] at h
      obtain rfl := by simpa using h.symm
      exact ⟨[], by simp, by simp⟩
  | case2 st id rest htodo0 hlook =>
      intro h _ _
      rw [serializeLoop_missing htodo0 hlook] at h
      exact Option.noConfusion h
  | case3 st id rest htodo0 r hlook hw =>
      intro h _ _
      rw [serializeLoop_write_none htodo0 hlook hw] at h
      exact Option.noConfusion h
  | case4 st id rest htodo0 r hlook st1 hw ih =>
      intro h hlibdone htodoL
      rw [serializeLoop_cons htodo0 hlook hw] at h
      obtain ⟨delta, hdone, htodoq, hnd, hfresh, horder⟩ := writeRecord_q hw
      have horder' : st1.order = st.order := horder
      have htodoq' : st1.todo = rest ++ delta := htodoq
      have hdone' : st1.done = delta.reverse ++ st.done := hdone
      have hlib1 : ∀ p ∈ g.records, ∀ name, p.2 = Record.BinaryLibrary name →
          p.1 ∈ st1.done := by
        intro p hp name hn2
        rw [hdone']
        exact List.mem_append_right _ (hlibdone p hp name hn2)
      have htodo1 : ∀ x ∈ st1.todo, ∀ name,
          lookupA g.records x ≠ some (.BinaryLibrary name) := by
        rw [htodoq']
        intro x hx name hcon
        rcases List.mem_append.mp hx with hx | hx
        · exact htodoL x (by rw [htodo0]; exact List.mem_cons_of_mem _ hx) name hcon
        · exact (hfresh x hx).2
            (hlibdone (x, .BinaryLibrary name) (lookupA_mem hcon) name rfl)
      obtain ⟨tail, ht1, ht2⟩ := ih h hlib1 htodo1
      refine ⟨id :: tail, ?_, ?_⟩
      · rw [ht1]
        show (st1.order ++ [id]) ++ tail = st.order ++ id :: tail
        rw [horder']
        simp
      · intro x hx name
        rcases List.mem_cons.mp hx with rfl | hx
        · exact htodoL x (by rw [htodo0]; exact List.mem_cons_self _ _) name
        · exact ht2 x hx name

/-- C7: on a successful run (over a well-formed records map, i.e. with
duplicate-free keys as a `HashMap` guarantees), the emitted ids are
exactly the `BinaryLibrary` entries plus everything reachable from
`root_id` along walked `Reference` members (`Reaches`); each id is
emitted at most once; and the emission order is all library records
first, followed only by non-library records. -/
theorem c7_emission_set {g : DeserializedRecord} {st : SState}
    (hnk : (g.records.map Prod.fst).Nodup)
    (h : serializeRun g = some st) :
    (∀ x, x ∈ st.order ↔ Reaches g x) ∧
    st.order.Nodup ∧
    (∃ L tail, st.order = L ++ tail ∧
      (∀ x ∈ L, ∃ name, lookupA g.records x = some (.BinaryLibrary name)) ∧
      (∀ x ∈ tail, ∀ name, lookupA g.records x ≠ some (.BinaryLibrary name))) := by
  unfold serializeRun at h
  obtain ⟨deltaL, hdoneL, htodoL, hndL, hfreshL, horderL⟩ :=
    enqueueLibs_q g.records (headerState g)
  obtain ⟨deltaR, hdoneR, htodoR, hndR, hfreshR, horderR⟩ :=
    StepsToQ_addTodo (S := [g.root_id]) (enqueueLibs g.records (headerState g))
      (List.mem_cons_self _ _)
  have hhd : (headerState g).done = [] := rfl
  have hht : (headerState g).todo = [] := rfl
  have hho : (headerState g).order = [] := rfl
  rw [hhd, List.append_nil] at hdoneL
  rw [hht, List.nil_append] at htodoL
  rw [hho] at horderL
  rw [hdoneL] at hdoneR
  rw [htodoL] at htodoR
  rw [horderL] at horderR
  have hlibsL : ∀ x ∈ deltaL, ∃ name,
      lookupA g.records x = some (.BinaryLibrary name) := by
    intro x hx
    have hspec := enqueueLibs_todo_spec g.records (headerState g) x
      (by rw [htodoL]; exact hx)
    rcases hspec with hx0 | ⟨name, hmem⟩
    · rw [hht] at hx0; simp at hx0
    · exact ⟨name, lookupA_eq_of_mem_nodup hnk hmem⟩
  -- duplicate-freeness via the C10 invariant
  have hn0 : ((addTodo g.root_id (enqueueLibs g.records (headerState g))).order ++
      (addTodo g.root_id (enqueueLibs g.records (headerState g))).todo).Nodup := by
    rw [horderR, htodoR]
    refine List.nil_append _ ▸ (List.nodup_append.mpr ⟨hndL, hndR, ?_⟩)
    intro a ha ha2
    exact (hfreshR a ha2).2 (by rw [hdoneL]; exact List.mem_reverse.mpr ha)
  have htd0 : ∀ x ∈ (addTodo g.root_id (enqueueLibs g.records (headerState g))).todo,
      x ∈ (addTodo g.root_id (enqueueLibs g.records (headerState g))).done := by
    rw [htodoR, hdoneR]
    intro x hx
    rcases List.mem_append.mp hx with hx | hx
    · exact List.mem_append_right _ (List.mem_reverse.mpr hx)
    · exact List.mem_append_left _ (List.mem_reverse.mpr hx)
  have hod0 : ∀ x ∈ (addTodo g.root_id (enqueueLibs g.records (headerState g))).order,
      x ∈ (addTodo g.root_id (enqueueLibs g.records (headerState g))).done := by
    rw [horderR]
    intro x hx
    simp at hx
  have hkeys0 : ∀ x ∈ (addTodo g.root_id (enqueueLibs g.records (headerState g))).order,
      x ∈ g.records.map Prod.fst := by
    rw [horderR]
    intro x hx
    simp at hx
  obtain ⟨hfin_todo, hNodup, hfin_keys⟩ := serializeLoop_inv h hn0 htd0 hod0 hkeys0
  -- reachability
  have hI1 : ∀ x, x ∈ (addTodo g.root_id (enqueueLibs g.records (headerState g))).done ↔
      (x ∈ (addTodo g.root_id (enqueueLibs g.records (headerState g))).order ∨
       x ∈ (addTodo g.root_id (enqueueLibs g.records (headerState g))).todo) := by
    intro x
    rw [hdoneR, horderR, htodoR]
    simp only [List.mem_append, List.mem_reverse, List.not_mem_nil, false_or]
    tauto
  have hI2 : ∀ y ∈ (addTodo g.root_id (enqueueLibs g.records (headerState g))).order,
      ∃ r, lookupA g.records y = some r ∧ ∀ x ∈ recordRefs g r,
        x ∈ (addTodo g.root_id (enqueueLibs g.records (headerState g))).done := by
    rw [horderR]
    intro y hy
    simp at hy
  have hI3 : ∀ x ∈ (addTodo g.root_id (enqueueLibs g.records (headerState g))).done,
      Reaches g x := by
    intro x hx
    rcases addTodo_done_spec hx with rfl | hx1
    · exact Reaches.root
    · rcases enqueueLibs_done_spec g.records (headerState g) x hx1 with hx2 | ⟨name, hmem⟩
      · rw [hhd] at hx2; simp at hx2
      · exact Reaches.lib hmem
  obtain ⟨hiff, hclosed, hsound, hgrow⟩ := serializeLoop_reach h hI1 hI2 hI3
  have hreach_mem : ∀ x, Reaches g x → x ∈ st.done := by
    intro x hx
    induction hx with
    | root => exact hgrow _ (addTodo_self_done _ _)
    | @lib id name hmem =>
        have h1 := enqueueLibs_libs_done g.records (headerState g) hmem
        rw [hdoneL] at h1
        refine hgrow _ ?_
        rw [hdoneR]
        exact List.mem_append_right _ h1
    | @step id x r hR hlk hmem ih =>
        obtain ⟨rr, hlk', hrefs⟩ := hclosed _ ((hiff _).mp ih)
        rw [hlk] at hlk'
        obtain rfl := by simpa using hlk'.symm
        exact hrefs _ hmem
  refine ⟨fun x => ⟨fun hx => hsound x ((hiff x).mpr hx),
    fun hx => (hiff x).mp (hreach_mem x hx)⟩, hNodup, ?_⟩
  -- ordering: library phase then a library-free tail
  obtain ⟨stM, hM, hMorder, hMtodo, hMdone⟩ :=
    serializeLoop_libs_first deltaL h htodoR hlibsL
  have hlibdone : ∀ p ∈ g.records, ∀ name, p.2 = Record.BinaryLibrary name →
      p.1 ∈ stM.done := by
    intro p hp name hn2
    have hp' : (p.1, Record.BinaryLibrary name) ∈ g.records := by
      rw [← hn2]
      exact hp
    have h1 := enqueueLibs_libs_done g.records (headerState g) hp'
    rw [hdoneL] at h1
    rw [hMdone, hdoneR]
    exact List.mem_append_right _ h1
  have htodoLib : ∀ x ∈ stM.todo, ∀ name,
      lookupA g.records x ≠ some (.BinaryLibrary name) := by
    rw [hMtodo]
    intro x hx name hcon
    exact (hfreshR x hx).2
      (enqueueLibs_libs_done g.records (headerState g) (lookupA_mem hcon))
  obtain ⟨tail, htail1, htail2⟩ := serializeLoop_nolib hM hlibdone htodoLib
  refine ⟨deltaL, tail, ?_, hlibsL, htail2⟩
  rw [htail1, hMorder, horderR]
  simp

/-- Witness for C7 at a concrete graph with one library (id 3) and one
class (id 1, the root) whose class type lives in that library: the run
emits exactly `[3, 1]` — the library first, each record once — and the
emitted set is the reachable set. -/
theorem c7_emission_set_witness :
    ∃ st, serializeRun ⟨1, 2, [(1, Record.Class ⟨0, []⟩),
        (3, Record.BinaryLibrary [76])], [⟨[67], 3, false, [], []⟩]⟩ = some st ∧
      (∀ x, x ∈ st.order ↔ Reaches ⟨1, 2, [(1, Record.Class ⟨0, []⟩),
        (3, Record.BinaryLibrary [76])], [⟨[67], 3, false, [], []⟩]⟩ x) ∧
      st.order.Nodup ∧
      (∃ L tail, st.order = L ++ tail ∧
        (∀ x ∈ L, ∃ name, lookupA [(1, Record.Class ⟨0, []⟩),
          (3, Record.BinaryLibrary [76])] x = some (.BinaryLibrary name)) ∧
        (∀ x ∈ tail, ∀ name, lookupA [(1, Record.Class ⟨0, []⟩),
          (3, Record.BinaryLibrary [76])] x ≠ some (.BinaryLibrary name))) := by
  have hnk : (([(1, Record.Class ⟨0, []⟩), (3, Record.BinaryLibrary [76])] :
      List (Nat × Record)).map Prod.fst).Nodup := by simp
  have hw3 : writeRecord ⟨1, 2, [(1, Record.Class ⟨0, []⟩),
      (3, Record.BinaryLibrary [76])], [⟨[67], 3, false, [], []⟩]⟩ 3
      (.BinaryLibrary [76])
      ⟨[0,1,0,0,0,2,0,0,0,1,0,0,0,0,0,0,0], [1], [1,3], [], []⟩ =
      some ⟨[0,1,0,0,0,2,0,0,0,1,0,0,0,0,0,0,0,12,3,0,0,0,1,76],
        [1], [1,3], [], []⟩ := by
    simp [writeRecord, writeString, writeLength, writeI32, writeU8, leBytes]
  have hw1 : writeRecord ⟨1, 2, [(1, Record.Class ⟨0, []⟩),
      (3, Record.BinaryLibrary [76])], [⟨[67], 3, false, [], []⟩]⟩ 1
      (.Class ⟨0, []⟩)
      ⟨[0,1,0,0,0,2,0,0,0,1,0,0,0,0,0,0,0,12,3,0,0,0,1,76], [], [1,3], [], [3]⟩ =
      some ⟨[0,1,0,0,0,2,0,0,0,1,0,0,0,0,0,0,0,12,3,0,0,0,1,76,
        5,1,0,0,0,1,67,0,0,0,0,3,0,0,0], [], [1,3], [(0,1)], [3]⟩ := by
    simp [writeRecord, writeClassType, writeString, writeLength, writeI32, writeU8,
      writeMemberTypesS, writeAdditionalInfoS, writeStringsS, writeMembers, lookupA,
      leBytes]
  have hrun : serializeRun ⟨1, 2, [(1, Record.Class ⟨0, []⟩),
      (3, Record.BinaryLibrary [76])], [⟨[67], 3, false, [], []⟩]⟩ =
      some ⟨[0,1,0,0,0,2,0,0,0,1,0,0,0,0,0,0,0,12,3,0,0,0,1,76,
        5,1,0,0,0,1,67,0,0,0,0,3,0,0,0], [], [1,3], [(0,1)], [3,1]⟩ := by
    have hlook3 : lookupA [(1, Record.Class ⟨0, []⟩), (3, Record.BinaryLibrary [76])] 3 =
        some (.BinaryLibrary [76]) := by simp [lookupA]
    have hlook1 : lookupA [(1, Record.Class ⟨0, []⟩), (3, Record.BinaryLibrary [76])] 1 =
        some (.Class ⟨0, []⟩) := by simp [lookupA]
    show serializeLoop _ ⟨[0,1,0,0,0,2,0,0,0,1,0,0,0,0,0,0,0], [3,1], [1,3], [], []⟩ =
      some _
    rw [serializeLoop_cons rfl hlook3 hw3]
    show serializeLoop _ ⟨[0,1,0,0,0,2,0,0,0,1,0,0,0,0,0,0,0,12,3,0,0,0,1,76],
      [1], [1,3], [], [3]⟩ = some _
    rw [serializeLoop_cons rfl hlook1 hw1]
    show serializeLoop _ ⟨[0,1,0,0,0,2,0,0,0,1,0,0,0,0,0,0,0,12,3,0,0,0,1,76,
      5,1,0,0,0,1,67,0,0,0,0,3,0,0,0], [], [1,3], [(0,1)], [3,1]⟩ = some _
    exact serializeLoop_nil rfl
  exact ⟨_, hrun, c7_emission_set hnk hrun⟩

/-! ## Claim C1: the encode-decode-encode round-trip

The failing input below is the encoder's own output for a graph whose
single class record has one `NullMultiple 2` member against one declared
member type.  The encoder writes the member as `ObjectNullMultiple256`
(tag 13, count 2); the decoder's member loop (`parse_members`,
parser.rs:205-220) expands the token into two `Null` members while
advancing its member-type index by only one, so the decoded class holds
`[Null, Null]`; re-encoding zips those members against the single
declared type and writes a single `ObjectNull` (tag 10), producing a
different byte stream. -/

/-- C1: the round-trip `encode (decode S) = S` fails on an
encoder-produced stream: serializing the `NullMultiple` graph, parsing
the resulting bytes and serializing the parsed graph changes the member
bytes `13, 2` into `10`. -/
theorem c1_roundtrip_failure :
    serialize ⟨1, 2, [(1, Record.Class ⟨0, [.NullMultiple 2]⟩)],
        [⟨[67], 0, false, [[120]], [.Object]⟩]⟩ =
      some [0,1,0,0,0,2,0,0,0,1,0,0,0,0,0,0,0,
        5,1,0,0,0,1,67,1,0,0,0,1,120,2,0,0,0,0,13,2,11] ∧
    parse [0,1,0,0,0,2,0,0,0,1,0,0,0,0,0,0,0,
        5,1,0,0,0,1,67,1,0,0,0,1,120,2,0,0,0,0,13,2,11] =
      .ok ⟨1, 2, [(1, Record.Class ⟨0, [.Null, .Null]⟩)],
        [⟨[67], 0, false, [[120]], [.Object]⟩]⟩ ∧
    serialize ⟨1, 2, [(1, Record.Class ⟨0, [.Null, .Null]⟩)],
        [⟨[67], 0, false, [[120]], [.Object]⟩]⟩ =
      some [0,1,0,0,0,2,0,0,0,1,0,0,0,0,0,0,0,
        5,1,0,0,0,1,67,1,0,0,0,1,120,2,0,0,0,0,10,11] ∧
    ([0,1,0,0,0,2,0,0,0,1,0,0,0,0,0,0,0,
        5,1,0,0,0,1,67,1,0,0,0,1,120,2,0,0,0,0,10,11] : List Nat) ≠
      [0,1,0,0,0,2,0,0,0,1,0,0,0,0,0,0,0,
        5,1,0,0,0,1,67,1,0,0,0,1,120,2,0,0,0,0,13,2,11] := by
  refine ⟨?_, ?_, ?_, by decide⟩
  · -- encode the NullMultiple graph
    have hw : writeRecord ⟨1, 2, [(1, Record.Class ⟨0, [.NullMultiple 2]⟩)],
        [⟨[67], 0, false, [[120]], [.Object]⟩]⟩ 1 (.Class ⟨0, [.NullMultiple 2]⟩)
        ⟨[0,1,0,0,0,2,0,0,0,1,0,0,0,0,0,0,0], [], [1], [], []⟩ =
        some ⟨[0,1,0,0,0,2,0,0,0,1,0,0,0,0,0,0,0,
          5,1,0,0,0,1,67,1,0,0,0,1,120,2,0,0,0,0,13,2], [], [1], [(0,1)], []⟩ := by
      simp [writeRecord, writeClassType, writeString, writeLength, writeI32, writeU8,
        writeMemberTypesS, writeAdditionalInfoS, writeStringsS, writeMembers,
        writeMember, writeMemberType, writeMemberTypeAdditionalInfo, lookupA, leBytes]
    have hrun : serializeRun ⟨1, 2, [(1, Record.Class ⟨0, [.NullMultiple 2]⟩)],
        [⟨[67], 0, false, [[120]], [.Object]⟩]⟩ =
        some ⟨[0,1,0,0,0,2,0,0,0,1,0,0,0,0,0,0,0,
          5,1,0,0,0,1,67,1,0,0,0,1,120,2,0,0,0,0,13,2], [], [1], [(0,1)], [1]⟩ := by
      show serializeLoop _ ⟨[0,1,0,0,0,2,0,0,0,1,0,0,0,0,0,0,0], [1], [1], [], []⟩ =
        some _
      rw [serializeLoop_cons rfl (by simp [lookupA]) hw]
      show serializeLoop _ ⟨[0,1,0,0,0,2,0,0,0,1,0,0,0,0,0,0,0,
        5,1,0,0,0,1,67,1,0,0,0,1,120,2,0,0,0,0,13,2], [], [1], [(0,1)], [1]⟩ = some _
      exact serializeLoop_nil rfl
    show (match serializeRun ⟨1, 2, [(1, Record.Class ⟨0, [.NullMultiple 2]⟩)],
        [⟨[67], 0, false, [[120]], [.Object]⟩]⟩ with
      | none => none
      | some st => some ((writeU8 11 st).output)) = _
    rw [hrun]
    simp [writeU8]
  · -- decode the produced stream
    rw [show ([0,1,0,0,0,2,0,0,0,1,0,0,0,0,0,0,0,
        5,1,0,0,0,1,67,1,0,0,0,1,120,2,0,0,0,0,13,2,11] : List Nat) =
      0 :: (leBytes 4 1 ++ (leBytes 4 2 ++ (leBytes 4 1 ++ (leBytes 4 0 ++
        [5,1,0,0,0,1,67,1,0,0,0,1,120,2,0,0,0,0,13,2,11])))) from rfl]
    rw [parse_eval (by norm_num) (by norm_num)]
    have hm1 : parseMember .Object ⟨[13, 2, 11], [], [], []⟩ =
        .ok (.NullMultiple 2, ⟨[11], [], [], []⟩) := by
      rw [@parseMember_object ⟨[13, 2, 11], [], [], []⟩ 13 ⟨[2, 11], [], [], []⟩ rfl]
      exact parseMemberTagged_13 rfl
    have h4 : parseMembers [.Object] ⟨[13, 2, 11], [], [], []⟩ =
        .ok ([.Null, .Null], ⟨[11], [], [], []⟩) := by
      rw [parseMembers_cons hm1 (by norm_num)]
      rw [parseMembers_nil]
      rfl
    have hrec : parseRecordTop ⟨[5,1,0,0,0,1,67,1,0,0,0,1,120,2,0,0,0,0,13,2,11],
        [], [], []⟩ =
        .ok ((1, .Class ⟨0, [.Null, .Null]⟩),
          ⟨[11], [], [⟨[67], 0, false, [[120]], [.Object]⟩], [(1, 0)]⟩) := by
      simp only [parseRecordTop, parseU8]
      exact @parseClassWMT_eval
        ⟨[1,0,0,0,1,67,1,0,0,0,1,120,2,0,0,0,0,13,2,11], [], [], []⟩
        1 [67] [[120]]
        ⟨[2,0,0,0,0,13,2,11], [], [], []⟩
        [.Object]
        ⟨[0,0,0,0,13,2,11], [], [], []⟩
        0
        ⟨[13,2,11], [], [], []⟩ _ _ rfl rfl rfl h4
    rw [@parseLoop_cont ⟨[5,1,0,0,0,1,67,1,0,0,0,1,120,2,0,0,0,0,13,2,11],
        [], [], []⟩ 5 _ _ _ _ rfl (by omega) hrec rfl (by norm_num)]
    dsimp only [List.nil_append]
    rw [@parseLoop_stop ⟨[11], [(1, .Class ⟨0, [.Null, .Null]⟩)],
      [⟨[67], 0, false, [[120]], [.Object]⟩], [(1, 0)]⟩ rfl]
  · -- re-encode the decoded graph
    have hw : writeRecord ⟨1, 2, [(1, Record.Class ⟨0, [.Null, .Null]⟩)],
        [⟨[67], 0, false, [[120]], [.Object]⟩]⟩ 1 (.Class ⟨0, [.Null, .Null]⟩)
        ⟨[0,1,0,0,0,2,0,0,0,1,0,0,0,0,0,0,0], [], [1], [], []⟩ =
        some ⟨[0,1,0,0,0,2,0,0,0,1,0,0,0,0,0,0,0,
          5,1,0,0,0,1,67,1,0,0,0,1,120,2,0,0,0,0,10], [], [1], [(0,1)], []⟩ := by
      simp [writeRecord, writeClassType, writeString, writeLength, writeI32, writeU8,
        writeMemberTypesS, writeAdditionalInfoS, writeStringsS, writeMembers,
        writeMember, writeMemberType, writeMemberTypeAdditionalInfo, lookupA, leBytes]
    have hrun : serializeRun ⟨1, 2, [(1, Record.Class ⟨0, [.Null, .Null]⟩)],
        [⟨[67], 0, false, [[120]], [.Object]⟩]⟩ =
        some ⟨[0,1,0,0,0,2,0,0,0,1,0,0,0,0,0,0,0,
          5,1,0,0,0,1,67,1,0,0,0,1,120,2,0,0,0,0,10], [], [1], [(0,1)], [1]⟩ := by
      show serializeLoop _ ⟨[0,1,0,0,0,2,0,0,0,1,0,0,0,0,0,0,0], [1], [1], [], []⟩ =
        some _
      rw [serializeLoop_cons rfl (by simp [lookupA]) hw]
      show serializeLoop _ ⟨[0,1,0,0,0,2,0,0,0,1,0,0,0,0,0,0,0,
        5,1,0,0,0,1,67,1,0,0,0,1,120,2,0,0,0,0,10], [], [1], [(0,1)], [1]⟩ = some _
      exact serializeLoop_nil rfl
    show (match serializeRun ⟨1, 2, [(1, Record.Class ⟨0, [.Null, .Null]⟩)],
        [⟨[67], 0, false, [[120]], [.Object]⟩]⟩ with
      | none => none
      | some st => some ((writeU8 11 st).output)) = _
    rw [hrun]
    simp [writeU8]

end Codec
